import Mathlib

/-!
Verification of the multi-provider tool orchestration layer of the
medical-mcp repository (`src/mcp-client/client.py`).

The embedding translates the Python source into Lean:
* JSON values (Python dicts/lists/strings as produced by `json.loads`)
  become the inductive type `JVal`; Python dict operations become
  association-list operations (`getKey`, `setKey`, ...) with Python dict
  semantics: an assignment to an existing key replaces its entry in
  place, a new key is appended at the end.
* `filter_input_schema` (client.py lines 136-154) becomes
  `filter_input_schema : JVal → Except String JVal`; the `Except` layer
  records the places where the Python code would raise (`TypeError` from
  `in` / `del` on non-container values, `AttributeError` from `.keys()`
  on a non-dict).
* `ConnectionManager.list_tools` (lines 57-64) becomes `list_tools`.
* `ConnectionManager.call_tool` (lines 66-75) becomes `call_tool`; an
  MCP `ClientSession` is an external collaborator and is modelled as a
  function `String → JVal → Except String (List String)` returning the
  texts of `result.content` or an exception.
* `ConnectionManager.initialize` (lines 31-55) becomes `cmInitAll`
  over a list of provider specifications whose three await points
  (transport open, session enter, `session.initialize()` handshake) may
  each raise; the state tracks the `AsyncExitStack` contents, which are
  only released by `close` / `aclose`, never by the exception itself.
* the `chat` generator (lines 81-133) becomes `chat`; the OpenAI
  completion call and `json.loads` are external collaborators and are
  parameters of `ChatEnv`.  The three `yield` sites become the three
  constructors of `ChatEvent`; an uncaught Python exception becomes the
  `ChatOutcome.raised` outcome, carrying the events already yielded.
-/

/-- A JSON value, as produced by `json.loads` and as found in the MCP tool
`inputSchema` objects manipulated by `filter_input_schema`. -/
inductive JVal where
  | null : JVal
  | bool (b : Bool) : JVal
  | num (n : Int) : JVal
  | str (s : String) : JVal
  | arr (xs : List JVal) : JVal
  | obj (fields : List (String × JVal)) : JVal

/-- Python `x == s` for a JSON value `x` and a string `s`: true exactly when
`x` is that string (JSON values of different shapes are never `==` to a
string). -/
def jvalIsStr (x : JVal) (s : String) : Bool :=
  match x with
  | .str t => t == s
  | _ => false

/-- Python `s in xs` for a string `s` and a list `xs`: membership by `==`. -/
def strMem (s : String) (xs : List JVal) : Bool :=
  xs.any (fun x => jvalIsStr x s)

/-- Python `d[k]` / `d.get(k)` on a dict represented as an association list:
the value of the first entry with key `k`. -/
def getKey {α : Type} : List (String × α) → String → Option α
  | [], _ => none
  | (k', v) :: rest, k => if k' = k then some v else getKey rest k

/-- Python `k in d` for a dict. -/
def hasKey {α : Type} (fs : List (String × α)) (k : String) : Bool :=
  (getKey fs k).isSome

/-- Python `d[k] = v`: replace the entry for `k` in place if the key is
present (a dict has at most one such entry, and an existing key keeps its
position), otherwise append the new key at the end, which is where Python
dicts place newly inserted keys. -/
def setKey {α : Type} : List (String × α) → String → α → List (String × α)
  | [], k, v => [(k, v)]
  | (k₀, w) :: rest, k, v =>
    if k₀ = k then (k, v) :: rest else (k₀, w) :: setKey rest k v

/-- Python `del d[k]` for a dict (total: deleting an absent key is the
identity here; the source only deletes keys it has just tested for). -/
def delKey {α : Type} (fs : List (String × α)) (k : String) :
    List (String × α) :=
  fs.filter (fun p => !(p.1 == k))

/-- Python `needle in s` for strings: substring test. -/
def pySubstr (needle s : String) : Bool :=
  (s.splitOn needle).length != 1

/-- Python `needle in v` for a string `needle` and an arbitrary value `v`:
key containment for dicts, substring test for strings, element equality for
lists, and a `TypeError` otherwise. -/
def pyInStr (needle : String) (v : JVal) : Except String Bool :=
  match v with
  | .obj fs => .ok (hasKey fs needle)
  | .str s => .ok (pySubstr needle s)
  | .arr xs => .ok (strMem needle xs)
  | _ => .error "TypeError: argument is not iterable"

/-- The `required`-completion loop of `filter_input_schema`:
`for key in properties: if key not in required: required.append(key)`.
The membership test is against the list as grown so far, exactly as in the
Python code, which mutates the list it is iterating over the keys into. -/
def reqAppendKeys (req : List JVal) (keys : List String) : List JVal :=
  keys.foldl (fun r k => if strMem k r then r else r ++ [JVal.str k]) req

/-- One step of the `default`-stripping loop of `filter_input_schema`:
`if "default" in value: del value["default"]`.  `in` follows Python
semantics per value shape; `del` on a non-dict value raises `TypeError`. -/
def cleanProp (p : String × JVal) : Except String (String × JVal) :=
  match pyInStr "default" p.2 with
  | .error e => .error e
  | .ok b =>
    if b then
      match p.2 with
      | .obj fs => .ok (p.1, .obj (delKey fs "default"))
      | _ => .error "TypeError: object does not support item deletion"
    else .ok p

/-- The `default`-stripping loop over all entries of the `properties` map. -/
def cleanProps : List (String × JVal) → Except String (List (String × JVal))
  | [] => .ok []
  | p :: rest =>
    match cleanProp p with
    | .error e => .error e
    | .ok p' =>
      match cleanProps rest with
      | .error e => .error e
      | .ok rest' => .ok (p' :: rest')

/-- The `required` normalisation step of `filter_input_schema`: if
`required` is absent or not a list, set it to exactly the property keys;
otherwise append the missing keys. -/
def requiredStep (fs : List (String × JVal)) (keys : List String) :
    List (String × JVal) :=
  match getKey fs "required" with
  | some (.arr req) => setKey fs "required" (.arr (reqAppendKeys req keys))
  | _ => setKey fs "required" (.arr (keys.map JVal.str))

/-- The `additionalProperties` step of `filter_input_schema`: set the flag
to `False` when absent (Python appends the new key at the end). -/
def apStep (fs : List (String × JVal)) : List (String × JVal) :=
  if hasKey fs "additionalProperties" then fs
  else fs ++ [("additionalProperties", JVal.bool false)]

/-- Body of `filter_input_schema` for a dict argument.  When `"properties"`
is absent the schema passes through unchanged; when present, its value must
be a dict (every branch of the Python code calls `.keys()` or `.items()` on
it, raising `AttributeError` otherwise), the `required` list is completed,
per-property `default` annotations are removed, and `additionalProperties`
is defaulted to `False`. -/
def filterObj (fs : List (String × JVal)) : Except String JVal :=
  match getKey fs "properties" with
  | none => .ok (.obj fs)
  | some (.obj pfs) =>
    match cleanProps pfs with
    | .error e => .error e
    | .ok pfs' =>
      .ok (.obj (apStep (setKey (requiredStep fs (pfs.map Prod.fst))
        "properties" (.obj pfs'))))
  | some _ => .error "AttributeError: value has no keys"

/-- `filter_input_schema` (client.py lines 136-154), as a function on JSON
values.  For a string or list input, Python's `"properties" in input_schema`
is a substring / element test; when it succeeds the subsequent indexing or
item assignment raises `TypeError`, and when it fails the schema is returned
unchanged.  For `None`, numbers and booleans the `in` test itself raises. -/
def filter_input_schema : JVal → Except String JVal
  | .obj fs => filterObj fs
  | .str s =>
    if pySubstr "properties" s then .error "TypeError: string operations"
    else .ok (.str s)
  | .arr xs =>
    if strMem "properties" xs then .error "TypeError: list operations"
    else .ok (.arr xs)
  | _ => .error "TypeError: argument is not iterable"

/-- A property value carries a `default` annotation when it is a dict with
a `"default"` key (only dict-shaped property schemas can carry one). -/
def propHasDefault : JVal → Bool
  | .obj fs => hasKey fs "default"
  | _ => false

/-- A tool as declared by an MCP server: the fields of the `mcp` tool
objects that `list_tools` and `main` read. -/
structure MCPTool where
  name : String
  description : String
  inputSchema : JVal

/-- `tool_map.update({tool.name: server_name for tool in tools.tools})`:
every tool of the session is written into the map with the session's server
name; a later write to the same tool name overwrites the earlier entry. -/
def toolMapUpdate (m : List (String × String)) (tools : List MCPTool)
    (server : String) : List (String × String) :=
  tools.foldl (fun acc t => setKey acc t.name server) m

/-- `ConnectionManager.list_tools` (client.py lines 57-64): fold over the
sessions in registration order, building the name → server map and the
concatenated tool list. -/
def list_tools (sessions : List (String × List MCPTool)) :
    List (String × String) × List MCPTool :=
  sessions.foldl (fun acc s => (toolMapUpdate acc.1 s.2 s.1, acc.2 ++ s.2))
    ([], [])

/-- An open MCP `ClientSession`, as the router uses it: `call_tool` takes
the tool name and the parsed arguments and either raises (the `.error`
case) or returns a result whose `content` is a list of text items.  The
session object itself is an external collaborator (the `mcp` package); the
repository code only awaits its `call_tool`. -/
def MCPSession : Type := String → JVal → Except String (List String)

/-- The `ConnectionManager` state that `call_tool` reads: the `sessions`
dict.  (A session object is always truthy in Python, so the `if session:`
guard fails exactly when the server name is absent from the dict.) -/
structure CM where
  sessions : List (String × MCPSession)

/-- `ConnectionManager.call_tool` (client.py lines 66-75).  A name absent
from `tool_map` (or mapped to a falsy/empty server name, or to a server
without a session) prints a notice and returns `None`; otherwise the
session is awaited, an exception from it propagates, and on success
`result.content[0].text` is returned — `IndexError` if `content` is empty. -/
def call_tool (cm : CM) (tool_name : String) (arguments : JVal)
    (tool_map : List (String × String)) : Except String (Option String) :=
  match getKey tool_map tool_name with
  | none => .ok none
  | some server_name =>
    if server_name = "" then .ok none
    else
      match getKey cm.sessions server_name with
      | none => .ok none
      | some session =>
        match session tool_name arguments with
        | .error e => .error e
        | .ok content =>
          match content with
          | [] => .error "IndexError: list index out of range"
          | c :: _ => .ok (some c)

/-- Message roles of the OpenAI chat API as used by `chat`. -/
inductive Role where
  | system : Role
  | user : Role
  | assistant : Role
  | tool : Role
deriving DecidableEq

/-- A tool call requested by the model: `{id, function: {name, arguments}}`
with `arguments` a raw JSON-encoded string still to be parsed. -/
structure ToolCall where
  id : String
  name : String
  arguments : String
deriving DecidableEq

/-- A conversation message.  Assistant messages that request tool calls
carry them in `tool_calls`; tool-role messages carry the correlating
`tool_call_id`. -/
structure Message where
  role : Role
  content : String
  tool_call_id : Option String
  tool_calls : List ToolCall
deriving DecidableEq

/-- The part of `result.choices[0]` that `chat` reads from a completion. -/
structure ModelResponse where
  finish_reason : String
  content : String
  tool_calls : List ToolCall

/-- Python `str(observation)` for the observation returned by `call_tool`:
`str(None)` is the string `"None"`. -/
def pyStrOfObs : Option String → String
  | none => "None"
  | some s => s

/-- The assistant message appended by
`chat_messages.append(result.choices[0].message)`. -/
def assistantToolMsg (r : ModelResponse) : Message :=
  { role := .assistant, content := r.content, tool_call_id := none,
    tool_calls := r.tool_calls }

/-- The tool-role message appended for one resolved tool call:
`{"role": "tool", "tool_call_id": tool_call.id, "content": str(observation)}`. -/
def toolResultMsg (id : String) (obs : Option String) : Message :=
  { role := .tool, content := pyStrOfObs obs, tool_call_id := some id,
    tool_calls := [] }

/-- The three `yield` sites of the `chat` generator, in order: the tool-call
log (line 108), the tool-observation log (line 115), and the final answer
(lines 125 and 133).  All are yielded as assistant-role dicts; the
constructor records which site produced the event and its payload. -/
inductive ChatEvent where
  | toolCallLog (tool server : String) (input : JVal) : ChatEvent
  | toolResultLog (tool server : String) (output : Option String) : ChatEvent
  | final (content : String) : ChatEvent

/-- True exactly for the final-answer events. -/
def isFinalEvent : ChatEvent → Bool
  | .final _ => true
  | _ => false

/-- The external collaborators and fixed arguments of one `chat` run:
`json.loads` (which raises on malformed input), the completion API as a
function of the messages and of the `tools` argument (`none` models the
final call that omits `tools`), the connection manager, the tool map and
the tool definition list (opaque JSON objects handed to the model). -/
structure ChatEnv where
  jsonLoads : String → Except String JVal
  model : List Message → Option (List JVal) → ModelResponse
  cm : CM
  tool_map : List (String × String)
  tools : List JVal

/-- The body of `for tool_call in result.choices[0].message.tool_calls`
(client.py lines 99-123), threading the conversation and the events
yielded so far.  A `json.loads` failure or an exception from `call_tool`
aborts the generator: the error carries the messages and events produced
up to that point, and nothing is appended for the failing call. -/
def processCalls (env : ChatEnv) :
    List ToolCall → List Message → List ChatEvent →
    Except (List Message × List ChatEvent × String)
      (List Message × List ChatEvent)
  | [], msgs, evs => .ok (msgs, evs)
  | tc :: rest, msgs, evs =>
    match env.jsonLoads tc.arguments with
    | .error e => .error (msgs, evs, e)
    | .ok args =>
      let server := (getKey env.tool_map tc.name).getD ""
      match call_tool env.cm tc.name args env.tool_map with
      | .error e =>
        .error (msgs, evs ++ [ChatEvent.toolCallLog tc.name server args], e)
      | .ok obs =>
        processCalls env rest (msgs ++ [toolResultMsg tc.id obs])
          (evs ++ [ChatEvent.toolCallLog tc.name server args,
            ChatEvent.toolResultLog tc.name server obs])

/-- How a `chat` run ended: the generator ran to completion, or a Python
exception escaped it. -/
inductive ChatOutcome where
  | done : ChatOutcome
  | raised (e : String) : ChatOutcome

/-- Observable trace of one `chat` run: the events yielded, the completion
calls made (each recorded as the `tools` argument passed, `none` for the
final call that withholds the tool definitions), the final value of the
`chat_messages` list, and how the run ended. -/
structure ChatResult where
  events : List ChatEvent
  calls : List (Option (List JVal))
  msgs : List Message
  outcome : ChatOutcome

/-- The `for _ in range(max_turns)` loop of `chat` (client.py lines
89-126) plus the post-loop completion (lines 129-133), by recursion on the
remaining turns.  At fuel 0 the loop has ended without a direct answer and
one more completion is made without the `tools` argument, whose content is
yielded as the last event.  Inside the loop, a `tool_calls` finish first
appends the assistant message, then resolves each requested call in order;
any other finish reason yields the content and returns immediately. -/
def chatLoop (env : ChatEnv) : Nat → List Message → ChatResult
  | 0, msgs =>
    { events := [ChatEvent.final (env.model msgs none).content],
      calls := [none], msgs := msgs, outcome := .done }
  | n + 1, msgs =>
    let r := env.model msgs (some env.tools)
    if r.finish_reason = "tool_calls" then
      match processCalls env r.tool_calls (msgs ++ [assistantToolMsg r]) [] with
      | .error (msgs1, evs, e) =>
        { events := evs, calls := [some env.tools], msgs := msgs1,
          outcome := .raised e }
      | .ok (msgs1, evs) =>
        let rest := chatLoop env n msgs1
        { events := evs ++ rest.events, calls := some env.tools :: rest.calls,
          msgs := rest.msgs, outcome := rest.outcome }
    else
      { events := [ChatEvent.final r.content], calls := [some env.tools],
        msgs := msgs, outcome := .done }

/-- The `chat` coroutine (client.py lines 81-133).  Its first statement,
`chat_messages = input_messages[:]`, copies the caller's list; the loop
then works on the copy. -/
def chat (env : ChatEnv) (input_messages : List Message) (max_turns : Nat) :
    ChatResult :=
  chatLoop env max_turns input_messages

/-- A heap of Python list objects, for stating what `chat` does to the
list object behind `input_messages`: references are indices, `hget` is a
read and `hset` an in-place update (out-of-range writes are dropped, as
they are unreachable). -/
def hget : List (List Message) → Nat → List Message
  | [], _ => []
  | x :: _, 0 => x
  | _ :: xs, n + 1 => hget xs n

/-- In-place update of the list object at a reference. -/
def hset : List (List Message) → Nat → List Message → List (List Message)
  | [], _, _ => []
  | _ :: xs, 0, v => v :: xs
  | x :: xs, n + 1, v => x :: hset xs n v

/-- `chat` at the level of list objects: `chat_messages = input_messages[:]`
allocates a fresh list object initialised with the content of the input
object, and every `chat_messages.append(...)` of the run updates that fresh
object (the loop touches no other list object, so its net effect on the
heap is the final content of the copy).  Returns the heap after the run,
the reference of the copy, and the run's trace. -/
def chatOnHeap (env : ChatEnv) (heap : List (List Message)) (inputRef : Nat)
    (max_turns : Nat) : List (List Message) × Nat × ChatResult :=
  let input := hget heap inputRef
  let chatRef := heap.length
  let heap1 := heap ++ [input]
  let r := chat env input max_turns
  (hset heap1 chatRef r.msgs, chatRef, r)

/-- One provider entry of the `stdio_server_map` / `sse_server_map`, with
the behaviour of its three initialisation awaits (client.py lines 34-43
and 46-55): entering the transport context, entering the
`ClientSession` context, and the `session.initialize()` handshake.  `none`
means the await succeeds, `some e` that it raises `e`. -/
structure ProviderSpec where
  name : String
  transportErr : Option String
  sessionErr : Option String
  handshakeErr : Option String

/-- The `ConnectionManager` state that initialisation builds: the resources
entered on the `AsyncExitStack` (in acquisition order; only
`exit_stack.aclose()` ever releases them) and the `sessions` dict keys. -/
structure CMInitState where
  exitStack : List String
  sessions : List String
deriving DecidableEq

/-- Initialisation of a single provider (one iteration of the loops in
`ConnectionManager.initialize`, client.py lines 34-43 / 46-55): each
successful `enter_async_context` pushes a resource on the exit stack; a
raise at any point propagates immediately, leaving the state — and in
particular every resource already on the stack — exactly as it was, with
nothing closed. -/
def cmInitStep (st : CMInitState) (p : ProviderSpec) :
    Except (String × CMInitState) CMInitState :=
  match p.transportErr with
  | some e => .error (e, st)
  | none =>
    let st1 : CMInitState :=
      { st with exitStack := st.exitStack ++ [p.name ++ ".transport"] }
    match p.sessionErr with
    | some e => .error (e, st1)
    | none =>
      let st2 : CMInitState :=
        { st1 with exitStack := st1.exitStack ++ [p.name ++ ".session"] }
      match p.handshakeErr with
      | some e => .error (e, st2)
      | none => .ok { st2 with sessions := st2.sessions ++ [p.name] }

/-- `ConnectionManager.initialize` (client.py lines 31-55): the stdio
providers followed by the SSE providers, in dict order, threaded through
`cmInitStep`.  There is no `try`/`finally` and the exit stack is not a
context manager here, so the first raise propagates with all
previously-acquired resources still open; `initialize_servers` (lines
173-176) calls this with no handler either. -/
def cmInitAll : List ProviderSpec → CMInitState →
    Except (String × CMInitState) CMInitState
  | [], st => .ok st
  | p :: rest, st =>
    match cmInitStep st p with
    | .error es => .error es
    | .ok st1 => cmInitAll rest st1

/-- `exit_stack.aclose()` as called by `ConnectionManager.close` (line 78):
releases every resource, in reverse order of acquisition.  The only place
resources are released — the failure path of initialisation never calls
it. -/
def cmClose (st : CMInitState) : CMInitState × List String :=
  ({ exitStack := [], sessions := [] }, st.exitStack.reverse)

/-! ### Association-list lemmas -/

theorem getKey_eq_none {α : Type} {fs : List (String × α)} {k : String} :
    getKey fs k = none ↔ ∀ p ∈ fs, p.1 ≠ k := by
  induction fs with
  | nil => simp [getKey]
  | cons p rest ih =>
    obtain ⟨k', v⟩ := p
    by_cases h : k' = k <;> simp [getKey, h, ih]

theorem getKey_append_of_some {α : Type} {fs : List (String × α)} {k : String}
    {v : α} (gs : List (String × α)) (h : getKey fs k = some v) :
    getKey (fs ++ gs) k = some v := by
  induction fs with
  | nil => simp [getKey] at h
  | cons p rest ih =>
    obtain ⟨k', w⟩ := p
    by_cases hk : k' = k <;> simp_all [getKey]

theorem getKey_append_of_none {α : Type} {fs : List (String × α)} {k : String}
    (gs : List (String × α)) (h : getKey fs k = none) :
    getKey (fs ++ gs) k = getKey gs k := by
  induction fs with
  | nil => simp [getKey]
  | cons p rest ih =>
    obtain ⟨k', w⟩ := p
    by_cases hk : k' = k <;> simp_all [getKey]


theorem getKey_setKey_self {α : Type} (fs : List (String × α)) (k : String)
    (v : α) : getKey (setKey fs k v) k = some v := by
  induction fs with
  | nil => simp [setKey, getKey]
  | cons p rest ih =>
    obtain ⟨k₀, w⟩ := p
    by_cases h : k₀ = k <;> simp [setKey, getKey, h, ih]

theorem getKey_setKey_ne {α : Type} (fs : List (String × α)) {k k' : String}
    (v : α) (h : k' ≠ k) : getKey (setKey fs k v) k' = getKey fs k' := by
  induction fs with
  | nil => simp [setKey, getKey, Ne.symm h]
  | cons p rest ih =>
    obtain ⟨k₀, w⟩ := p
    by_cases h₀ : k₀ = k
    · subst h₀
      simp [setKey, getKey, Ne.symm h]
    · simp [setKey, getKey, h₀, ih]

theorem hasKey_setKey_self {α : Type} (fs : List (String × α)) (k : String)
    (v : α) : hasKey (setKey fs k v) k = true := by
  rw [hasKey, getKey_setKey_self]; rfl

theorem hasKey_setKey_ne {α : Type} (fs : List (String × α)) {k k' : String}
    (v : α) (h : k' ≠ k) : hasKey (setKey fs k v) k' = hasKey fs k' := by
  rw [hasKey, getKey_setKey_ne _ _ h]; rfl

theorem setKey_eq_of_getKey {α : Type} {fs : List (String × α)} {k : String}
    {v : α} (h : getKey fs k = some v) : setKey fs k v = fs := by
  induction fs with
  | nil => simp [getKey] at h
  | cons p rest ih =>
    obtain ⟨k₀, w⟩ := p
    by_cases h₀ : k₀ = k
    · subst h₀
      simp [getKey] at h
      simp [setKey, h]
    · simp [getKey, h₀] at h
      simp [setKey, h₀, ih h]

theorem getKey_delKey_self {α : Type} (fs : List (String × α)) (k : String) :
    getKey (delKey fs k) k = none := by
  induction fs with
  | nil => simp [delKey, getKey]
  | cons p rest ih =>
    obtain ⟨k₀, w⟩ := p
    by_cases h₀ : k₀ = k <;> simp [delKey, List.filter_cons, h₀, getKey, ih] <;>
      simpa [delKey] using ih

theorem getKey_apStep_ne {fs : List (String × JVal)} {k : String}
    (h : k ≠ "additionalProperties") : getKey (apStep fs) k = getKey fs k := by
  rw [apStep]
  by_cases hh : hasKey fs "additionalProperties" = true
  · rw [if_pos hh]
  · rw [if_neg (by simpa using hh)]
    cases hg : getKey fs k with
    | none => rw [getKey_append_of_none _ hg]; simp [getKey, Ne.symm h]
    | some w => rw [getKey_append_of_some _ hg]

theorem hasKey_apStep_ap (fs : List (String × JVal)) :
    hasKey (apStep fs) "additionalProperties" = true := by
  rw [apStep]
  by_cases hh : hasKey fs "additionalProperties" = true
  · rw [if_pos hh]; exact hh
  · rw [if_neg (by simpa using hh)]
    have hnone : getKey fs "additionalProperties" = none := by
      cases hg : getKey fs "additionalProperties" with
      | none => rfl
      | some w => rw [hasKey, hg] at hh; simp at hh
    rw [hasKey, getKey_append_of_none _ hnone]
    simp [getKey]

theorem apStep_eq_of_hasKey {fs : List (String × JVal)}
    (h : hasKey fs "additionalProperties" = true) : apStep fs = fs := by
  rw [apStep, if_pos h]

theorem getKey_apStep_ap_of_none {fs : List (String × JVal)}
    (h : getKey fs "additionalProperties" = none) :
    getKey (apStep fs) "additionalProperties" = some (JVal.bool false) := by
  rw [apStep, if_neg (by simp [hasKey, h]), getKey_append_of_none _ h]
  simp [getKey]

/-! ### Lemmas about the `required`-completion loop -/

theorem jvalIsStr_iff {x : JVal} {k : String} :
    jvalIsStr x k = true ↔ x = JVal.str k := by
  cases x <;> simp [jvalIsStr]

theorem strMem_iff {k : String} {r : List JVal} :
    strMem k r = true ↔ JVal.str k ∈ r := by
  rw [strMem, List.any_eq_true]
  constructor
  · rintro ⟨x, hx, hj⟩
    rw [jvalIsStr_iff.mp hj] at hx
    exact hx
  · intro h
    exact ⟨_, h, jvalIsStr_iff.mpr rfl⟩

theorem reqAppendKeys_nil (R : List JVal) : reqAppendKeys R [] = R := rfl

theorem reqAppendKeys_cons (R : List JVal) (k₀ : String)
    (keys : List String) :
    reqAppendKeys R (k₀ :: keys) =
      reqAppendKeys (if strMem k₀ R then R else R ++ [JVal.str k₀]) keys := rfl

theorem reqAppendKeys_extend (keys : List String) :
    ∀ R : List JVal, ∃ ext, reqAppendKeys R keys = R ++ ext ∧
      ∀ x ∈ ext, (∃ k ∈ keys, x = JVal.str k) ∧ x ∉ R := by
  induction keys with
  | nil => intro R; exact ⟨[], by simp [reqAppendKeys_nil], by simp⟩
  | cons k₀ rest ih =>
    intro R
    rw [reqAppendKeys_cons]
    by_cases h : strMem k₀ R = true
    · rw [if_pos h]
      obtain ⟨ext, he, hmem⟩ := ih R
      refine ⟨ext, he, ?_⟩
      intro x hx
      obtain ⟨⟨k, hk, hx'⟩, hnot⟩ := hmem x hx
      exact ⟨⟨k, List.mem_cons_of_mem _ hk, hx'⟩, hnot⟩
    · rw [if_neg h]
      obtain ⟨ext, he, hmem⟩ := ih (R ++ [JVal.str k₀])
      refine ⟨JVal.str k₀ :: ext, by simpa [List.append_assoc] using he, ?_⟩
      intro x hx
      rcases List.mem_cons.mp hx with hx | hx
      · subst hx
        exact ⟨⟨k₀, by simp, rfl⟩, fun hc => h (strMem_iff.mpr hc)⟩
      · obtain ⟨⟨k, hk, hx'⟩, hnot⟩ := hmem x hx
        exact ⟨⟨k, List.mem_cons_of_mem _ hk, hx'⟩,
          fun hc => hnot (List.mem_append_left _ hc)⟩

theorem reqAppendKeys_mem {keys : List String} {k : String}
    (hk : k ∈ keys) : ∀ R : List JVal, JVal.str k ∈ reqAppendKeys R keys := by
  induction keys with
  | nil => cases hk
  | cons k₀ rest ih =>
    intro R
    rw [reqAppendKeys_cons]
    rcases List.mem_cons.mp hk with h | h
    · subst h
      by_cases hm : strMem k R = true
      · rw [if_pos hm]
        obtain ⟨ext, he, _⟩ := reqAppendKeys_extend rest R
        rw [he]
        exact List.mem_append_left _ (strMem_iff.mp hm)
      · rw [if_neg hm]
        obtain ⟨ext, he, _⟩ := reqAppendKeys_extend rest (R ++ [JVal.str k])
        rw [he]
        exact List.mem_append_left _ (by simp)
    · by_cases hm : strMem k₀ R = true
      · rw [if_pos hm]; exact ih h R
      · rw [if_neg hm]; exact ih h _

theorem reqAppendKeys_fixed {keys : List String} :
    ∀ {R : List JVal}, (∀ k ∈ keys, JVal.str k ∈ R) →
      reqAppendKeys R keys = R := by
  induction keys with
  | nil => intro R _; rfl
  | cons k₀ rest ih =>
    intro R h
    rw [reqAppendKeys_cons, if_pos (strMem_iff.mpr (h k₀ (by simp)))]
    exact ih (fun k hk => h k (List.mem_cons_of_mem _ hk))

theorem countP_eq_zero_of_not_mem {k : String} {R : List JVal}
    (h : JVal.str k ∉ R) : R.countP (fun x => jvalIsStr x k) = 0 := by
  rw [List.countP_eq_zero]
  intro a ha hj
  exact h (jvalIsStr_iff.mp hj ▸ ha)

theorem reqAppendKeys_countP_mem {k : String} {keys : List String} :
    ∀ {R : List JVal}, JVal.str k ∈ R →
      (reqAppendKeys R keys).countP (fun x => jvalIsStr x k) =
        R.countP (fun x => jvalIsStr x k) := by
  induction keys with
  | nil => intro R _; rfl
  | cons k₀ rest ih =>
    intro R hR
    rw [reqAppendKeys_cons]
    by_cases hm : strMem k₀ R = true
    · rw [if_pos hm]; exact ih hR
    · rw [if_neg hm]
      have hk₀ : k₀ ≠ k := by
        intro hc
        subst hc
        exact hm (strMem_iff.mpr hR)
      rw [ih (List.mem_append_left _ hR), List.countP_append]
      simp [jvalIsStr, hk₀]

theorem reqAppendKeys_countP_new {k : String} {keys : List String} :
    ∀ {R : List JVal}, JVal.str k ∉ R → k ∈ keys →
      (reqAppendKeys R keys).countP (fun x => jvalIsStr x k) = 1 := by
  induction keys with
  | nil => intro R _ hk; cases hk
  | cons k₀ rest ih =>
    intro R hR hk
    rw [reqAppendKeys_cons]
    by_cases hk₀ : k = k₀
    · subst hk₀
      have hm : strMem k R = false := by
        rw [Bool.eq_false_iff]
        intro hc
        exact hR (strMem_iff.mp hc)
      rw [if_neg (by simp [hm])]
      rw [reqAppendKeys_countP_mem (List.mem_append_right _ (by simp)),
        List.countP_append, countP_eq_zero_of_not_mem hR]
      simp [jvalIsStr]
    · have hk' : k ∈ rest := by
        rcases List.mem_cons.mp hk with h | h
        · exact absurd h hk₀
        · exact h
      by_cases hm : strMem k₀ R = true
      · rw [if_pos hm]; exact ih hR hk'
      · rw [if_neg hm]
        refine ih ?_ hk'
        intro hc
        rcases List.mem_append.mp hc with h | h
        · exact hR h
        · simp at h
          exact hk₀ h

/-! ### Lemmas about the `default`-stripping loop -/

theorem cleanProp_fst {p p' : String × JVal} (h : cleanProp p = .ok p') :
    p'.1 = p.1 := by
  obtain ⟨k, v⟩ := p
  cases v with
  | null => simp [cleanProp, pyInStr] at h
  | bool b => simp [cleanProp, pyInStr] at h
  | num n => simp [cleanProp, pyInStr] at h
  | str s =>
    by_cases hd : pySubstr "default" s = true <;>
      simp [cleanProp, pyInStr, hd] at h <;> simp [← h]
  | arr xs =>
    by_cases hd : strMem "default" xs = true <;>
      simp [cleanProp, pyInStr, hd] at h <;> simp [← h]
  | obj fs =>
    by_cases hd : hasKey fs "default" = true <;>
      simp [cleanProp, pyInStr, hd] at h <;> simp [← h]

theorem cleanProp_noDefault {p p' : String × JVal}
    (h : cleanProp p = .ok p') : propHasDefault p'.2 = false := by
  obtain ⟨k, v⟩ := p
  cases v with
  | null => simp [cleanProp, pyInStr] at h
  | bool b => simp [cleanProp, pyInStr] at h
  | num n => simp [cleanProp, pyInStr] at h
  | str s =>
    by_cases hd : pySubstr "default" s = true <;>
      simp [cleanProp, pyInStr, hd] at h
    simp [← h, propHasDefault]
  | arr xs =>
    by_cases hd : strMem "default" xs = true <;>
      simp [cleanProp, pyInStr, hd] at h
    simp [← h, propHasDefault]
  | obj fs =>
    by_cases hd : hasKey fs "default" = true
    · simp [cleanProp, pyInStr, hd] at h
      simp [← h, propHasDefault, hasKey, getKey_delKey_self]
    · simp [cleanProp, pyInStr, hd] at h
      simp only [← h, propHasDefault]
      simpa using hd

theorem cleanProp_idem {p p' : String × JVal}
    (h : cleanProp p = .ok p') : cleanProp p' = .ok p' := by
  have hnd := cleanProp_noDefault h
  obtain ⟨k, v⟩ := p
  cases v with
  | null => simp [cleanProp, pyInStr] at h
  | bool b => simp [cleanProp, pyInStr] at h
  | num n => simp [cleanProp, pyInStr] at h
  | str s =>
    by_cases hd : pySubstr "default" s = true <;>
      simp [cleanProp, pyInStr, hd] at h
    simp [← h, cleanProp, pyInStr, hd]
  | arr xs =>
    by_cases hd : strMem "default" xs = true <;>
      simp [cleanProp, pyInStr, hd] at h
    simp [← h, cleanProp, pyInStr, hd]
  | obj fs =>
    by_cases hd : hasKey fs "default" = true
    · simp [cleanProp, pyInStr, hd] at h
      simp [← h, cleanProp, pyInStr, hasKey, getKey_delKey_self]
    · have hd' : hasKey fs "default" = false := by simpa using hd
      simp [cleanProp, pyInStr, hd'] at h
      simp [← h, cleanProp, pyInStr, hd']

theorem cleanProps_fsts : ∀ {ps ps' : List (String × JVal)},
    cleanProps ps = .ok ps' → ps'.map Prod.fst = ps.map Prod.fst := by
  intro ps
  induction ps with
  | nil => intro ps' h; simp [cleanProps] at h; simp [← h]
  | cons p rest ih =>
    intro ps' h
    rw [cleanProps] at h
    cases hp : cleanProp p with
    | error e => rw [hp] at h; simp at h
    | ok p' =>
      rw [hp] at h
      cases hr : cleanProps rest with
      | error e => rw [hr] at h; simp at h
      | ok rest' =>
        rw [hr] at h
        simp only [Except.ok.injEq] at h
        rw [← h]
        simp [cleanProp_fst hp, ih hr]

theorem cleanProps_noDefault {ps ps' : List (String × JVal)}
    (h : cleanProps ps = .ok ps') :
    ∀ p ∈ ps', propHasDefault p.2 = false := by
  induction ps generalizing ps' with
  | nil =>
    simp [cleanProps] at h
    subst h
    simp
  | cons p rest ih =>
    rw [cleanProps] at h
    cases hp : cleanProp p with
    | error e => rw [hp] at h; simp at h
    | ok p' =>
      rw [hp] at h
      cases hr : cleanProps rest with
      | error e => rw [hr] at h; simp at h
      | ok rest' =>
        rw [hr] at h
        simp only [Except.ok.injEq] at h
        rw [← h]
        intro q hq
        rcases List.mem_cons.mp hq with hq | hq
        · subst hq; exact cleanProp_noDefault hp
        · exact ih hr q hq

theorem cleanProps_idem {ps ps' : List (String × JVal)}
    (h : cleanProps ps = .ok ps') : cleanProps ps' = .ok ps' := by
  induction ps generalizing ps' with
  | nil =>
    simp [cleanProps] at h
    subst h
    rfl
  | cons p rest ih =>
    rw [cleanProps] at h
    cases hp : cleanProp p with
    | error e => rw [hp] at h; simp at h
    | ok p' =>
      rw [hp] at h
      cases hr : cleanProps rest with
      | error e => rw [hr] at h; simp at h
      | ok rest' =>
        rw [hr] at h
        simp only [Except.ok.injEq] at h
        rw [← h]
        rw [cleanProps, cleanProp_idem hp, ih hr]

/-! ### Idempotence of schema normalisation -/

theorem getKey_requiredStep_required (fs : List (String × JVal))
    (keys : List String) :
    ∃ R', getKey (requiredStep fs keys) "required" = some (.arr R') ∧
      ∀ k ∈ keys, JVal.str k ∈ R' := by
  simp only [requiredStep]
  cases hg : getKey fs "required" with
  | none =>
    exact ⟨_, getKey_setKey_self _ _ _, fun k hk => List.mem_map_of_mem _ hk⟩
  | some v =>
    cases v with
    | arr req =>
      exact ⟨_, getKey_setKey_self _ _ _, fun k hk => reqAppendKeys_mem hk req⟩
    | null =>
      exact ⟨_, getKey_setKey_self _ _ _, fun k hk => List.mem_map_of_mem _ hk⟩
    | bool b =>
      exact ⟨_, getKey_setKey_self _ _ _, fun k hk => List.mem_map_of_mem _ hk⟩
    | num n =>
      exact ⟨_, getKey_setKey_self _ _ _, fun k hk => List.mem_map_of_mem _ hk⟩
    | str s =>
      exact ⟨_, getKey_setKey_self _ _ _, fun k hk => List.mem_map_of_mem _ hk⟩
    | obj o =>
      exact ⟨_, getKey_setKey_self _ _ _, fun k hk => List.mem_map_of_mem _ hk⟩

theorem requiredStep_eq_of_arr {fs : List (String × JVal)} {req : List JVal}
    (keys : List String) (h : getKey fs "required" = some (.arr req)) :
    requiredStep fs keys = setKey fs "required" (.arr (reqAppendKeys req keys)) := by
  simp only [requiredStep, h]

theorem filterObj_idem {fs : List (String × JVal)} {t : JVal}
    (h : filterObj fs = .ok t) : ∃ gs, t = .obj gs ∧ filterObj gs = .ok t := by
  cases hg : getKey fs "properties" with
  | none =>
    simp only [filterObj, hg, Except.ok.injEq] at h
    refine ⟨fs, h.symm, ?_⟩
    simp only [filterObj, hg, h]
  | some v =>
    cases v with
    | null => simp only [filterObj, hg] at h; cases h
    | bool b => simp only [filterObj, hg] at h; cases h
    | num n => simp only [filterObj, hg] at h; cases h
    | str s => simp only [filterObj, hg] at h; cases h
    | arr xs => simp only [filterObj, hg] at h; cases h
    | obj pfs =>
      cases hc : cleanProps pfs with
      | error e => simp only [filterObj, hg, hc] at h; cases h
      | ok pfs' =>
        simp only [filterObj, hg, hc, Except.ok.injEq] at h
        obtain ⟨R', hR, hRmem⟩ :=
          getKey_requiredStep_required fs (pfs.map Prod.fst)
        have hreq2 : getKey (setKey (requiredStep fs (pfs.map Prod.fst))
            "properties" (.obj pfs')) "required" = some (.arr R') := by
          rw [getKey_setKey_ne _ _ (by decide), hR]
        have hreq3 : getKey (apStep (setKey (requiredStep fs
            (pfs.map Prod.fst)) "properties" (.obj pfs'))) "required" =
            some (.arr R') := by
          rw [getKey_apStep_ne (by decide), hreq2]
        have hprops3 : getKey (apStep (setKey (requiredStep fs
            (pfs.map Prod.fst)) "properties" (.obj pfs'))) "properties" =
            some (.obj pfs') := by
          rw [getKey_apStep_ne (by decide), getKey_setKey_self]
        refine ⟨_, h.symm, ?_⟩
        rw [← h]
        simp only [filterObj, hprops3, cleanProps_idem hc, cleanProps_fsts hc]
        have hfix : requiredStep (apStep (setKey (requiredStep fs
            (pfs.map Prod.fst)) "properties" (.obj pfs')))
            (pfs.map Prod.fst) = apStep (setKey (requiredStep fs
            (pfs.map Prod.fst)) "properties" (.obj pfs')) := by
          rw [requiredStep_eq_of_arr _ hreq3, reqAppendKeys_fixed hRmem]
          exact setKey_eq_of_getKey hreq3
        rw [hfix]
        rw [setKey_eq_of_getKey hprops3]
        rw [apStep_eq_of_hasKey (hasKey_apStep_ap _)]

/-- C6: schema normalisation is idempotent — whenever `filter_input_schema`
succeeds on a schema, running it again on the result succeeds and returns
the result unchanged. -/
theorem filter_input_schema_idem (s t : JVal)
    (h : filter_input_schema s = .ok t) :
    filter_input_schema t = .ok t := by
  cases s with
  | null => simp [filter_input_schema] at h
  | bool b => simp [filter_input_schema] at h
  | num n => simp [filter_input_schema] at h
  | str s =>
    by_cases hp : pySubstr "properties" s = true
    · simp [filter_input_schema, hp] at h
    · simp [filter_input_schema, hp] at h
      rw [← h]
      simp [filter_input_schema, hp]
  | arr xs =>
    by_cases hp : strMem "properties" xs = true
    · simp [filter_input_schema, hp] at h
    · simp [filter_input_schema, hp] at h
      rw [← h]
      simp [filter_input_schema, hp]
  | obj fs =>
    have h' : filterObj fs = .ok t := h
    obtain ⟨gs, ht, hg⟩ := filterObj_idem h'
    rw [ht] at hg ⊢
    exact hg

/-- C6 witness: a concrete normalised schema is a fixed point of a second
normalisation. -/
theorem filter_input_schema_idem_witness :
    filter_input_schema (.obj [("properties",
      .obj [("a", .obj [("type", .str "string"), ("default", .num 5)])]),
      ("required", .arr [.str "a"])]) =
      .ok (.obj [("properties", .obj [("a", .obj [("type", .str "string")])]),
        ("required", .arr [.str "a"]),
        ("additionalProperties", .bool false)]) ∧
    filter_input_schema (.obj [("properties",
      .obj [("a", .obj [("type", .str "string")])]),
      ("required", .arr [.str "a"]),
      ("additionalProperties", .bool false)]) =
      .ok (.obj [("properties", .obj [("a", .obj [("type", .str "string")])]),
        ("required", .arr [.str "a"]),
        ("additionalProperties", .bool false)]) :=
  ⟨rfl, filter_input_schema_idem
    (.obj [("properties",
      .obj [("a", .obj [("type", .str "string"), ("default", .num 5)])]),
      ("required", .arr [.str "a"])])
    (.obj [("properties", .obj [("a", .obj [("type", .str "string")])]),
      ("required", .arr [.str "a"]),
      ("additionalProperties", .bool false)]) rfl⟩

/-! ### Functional correctness of schema normalisation (C7) -/

/-- C7: for a schema with a `properties` map, normalisation (when it
succeeds) completes the `required` list by appending each missing property
key — preserving the existing entries as a prefix, adding nothing but
property keys, appending a missing key exactly once and never duplicating a
key already required — creates `required` as exactly the property keys when
it is absent (or not a list), strips every per-property `default`
annotation while preserving the property keys, and sets
`additionalProperties` to `false` when the flag is absent. -/
theorem filter_input_schema_props (fs pfs : List (String × JVal)) (t : JVal)
    (hp : getKey fs "properties" = some (.obj pfs))
    (h : filter_input_schema (.obj fs) = .ok t) :
    ∃ gs, t = .obj gs ∧
      (∀ R, getKey fs "required" = some (.arr R) →
        ∃ R', getKey gs "required" = some (.arr R') ∧
          (∃ ext, R' = R ++ ext) ∧
          (∀ k ∈ pfs.map Prod.fst, JVal.str k ∈ R') ∧
          (∀ k ∈ pfs.map Prod.fst, JVal.str k ∉ R →
            R'.countP (fun x => jvalIsStr x k) = 1) ∧
          (∀ k, JVal.str k ∈ R →
            R'.countP (fun x => jvalIsStr x k) =
              R.countP (fun x => jvalIsStr x k)) ∧
          (∀ x ∈ R', x ∈ R ∨ ∃ k ∈ pfs.map Prod.fst, x = JVal.str k)) ∧
      ((∀ R, getKey fs "required" ≠ some (.arr R)) →
        getKey gs "required" =
          some (.arr ((pfs.map Prod.fst).map JVal.str))) ∧
      (∃ pfs', getKey gs "properties" = some (.obj pfs') ∧
        pfs'.map Prod.fst = pfs.map Prod.fst ∧
        ∀ p ∈ pfs', propHasDefault p.2 = false) ∧
      (getKey fs "additionalProperties" = none →
        getKey gs "additionalProperties" = some (.bool false)) := by
  have h' : filterObj fs = .ok t := h
  cases hc : cleanProps pfs with
  | error e => simp only [filterObj, hp, hc] at h'; cases h'
  | ok pfs' =>
    simp only [filterObj, hp, hc, Except.ok.injEq] at h'
    refine ⟨_, h'.symm, ?_, ?_, ?_, ?_⟩
    · intro R hR
      refine ⟨reqAppendKeys R (pfs.map Prod.fst), ?_, ?_, ?_, ?_, ?_, ?_⟩
      · rw [getKey_apStep_ne (by decide), getKey_setKey_ne _ _ (by decide),
          requiredStep_eq_of_arr _ hR, getKey_setKey_self]
      · obtain ⟨ext, he, _⟩ := reqAppendKeys_extend (pfs.map Prod.fst) R
        exact ⟨ext, he⟩
      · intro k hk
        exact reqAppendKeys_mem hk R
      · intro k hk hnot
        exact reqAppendKeys_countP_new hnot hk
      · intro k hk
        exact reqAppendKeys_countP_mem hk
      · intro x hx
        obtain ⟨ext, he, hmem⟩ := reqAppendKeys_extend (pfs.map Prod.fst) R
        rw [he] at hx
        rcases List.mem_append.mp hx with hx | hx
        · exact Or.inl hx
        · exact Or.inr (hmem x hx).1
    · intro hne
      cases hg : getKey fs "required" with
      | none =>
        rw [getKey_apStep_ne (by decide), getKey_setKey_ne _ _ (by decide)]
        simp only [requiredStep, hg]
        exact getKey_setKey_self _ _ _
      | some v =>
        cases v with
        | arr req => exact absurd hg (hne req)
        | null =>
          rw [getKey_apStep_ne (by decide), getKey_setKey_ne _ _ (by decide)]
          simp only [requiredStep, hg]
          exact getKey_setKey_self _ _ _
        | bool b =>
          rw [getKey_apStep_ne (by decide), getKey_setKey_ne _ _ (by decide)]
          simp only [requiredStep, hg]
          exact getKey_setKey_self _ _ _
        | num n =>
          rw [getKey_apStep_ne (by decide), getKey_setKey_ne _ _ (by decide)]
          simp only [requiredStep, hg]
          exact getKey_setKey_self _ _ _
        | str s =>
          rw [getKey_apStep_ne (by decide), getKey_setKey_ne _ _ (by decide)]
          simp only [requiredStep, hg]
          exact getKey_setKey_self _ _ _
        | obj o =>
          rw [getKey_apStep_ne (by decide), getKey_setKey_ne _ _ (by decide)]
          simp only [requiredStep, hg]
          exact getKey_setKey_self _ _ _
    · refine ⟨pfs', ?_, cleanProps_fsts hc, cleanProps_noDefault hc⟩
      rw [getKey_apStep_ne (by decide), getKey_setKey_self]
    · intro hap
      have h1 : getKey (requiredStep fs (pfs.map Prod.fst))
          "additionalProperties" = none := by
        cases hg : getKey fs "required" with
        | none => simp only [requiredStep, hg]
                  rw [getKey_setKey_ne _ _ (by decide)]
                  exact hap
        | some v =>
          cases v with
          | arr req =>
            rw [requiredStep_eq_of_arr _ hg, getKey_setKey_ne _ _ (by decide)]
            exact hap
          | null => simp only [requiredStep, hg]
                    rw [getKey_setKey_ne _ _ (by decide)]
                    exact hap
          | bool b => simp only [requiredStep, hg]
                      rw [getKey_setKey_ne _ _ (by decide)]
                      exact hap
          | num n => simp only [requiredStep, hg]
                     rw [getKey_setKey_ne _ _ (by decide)]
                     exact hap
          | str s => simp only [requiredStep, hg]
                     rw [getKey_setKey_ne _ _ (by decide)]
                     exact hap
          | obj o => simp only [requiredStep, hg]
                     rw [getKey_setKey_ne _ _ (by decide)]
                     exact hap
      have h2 : getKey (setKey (requiredStep fs (pfs.map Prod.fst))
          "properties" (.obj pfs')) "additionalProperties" = none := by
        rw [getKey_setKey_ne _ _ (by decide)]
        exact h1
      exact getKey_apStep_ap_of_none h2

/-- C7 witness: instantiating the normalisation theorem on the two example
schemas of the specification — properties `{a, b}` with `required: [a]`
(whose normalised `required` is `[a, b]`), and properties
`{x: {default: 5}}` (whose normalised form has no `default` under `x` and
`additionalProperties: false`). -/
theorem filter_input_schema_props_witness :
    (getKey [("properties", JVal.obj [("a", JVal.obj []), ("b", JVal.obj [])]),
        ("required", JVal.arr [JVal.str "a"])] "properties" =
      some (JVal.obj [("a", JVal.obj []), ("b", JVal.obj [])])) ∧
    (∃ gs, (JVal.obj [("properties", JVal.obj [("a", JVal.obj []),
        ("b", JVal.obj [])]),
        ("required", JVal.arr [JVal.str "a", JVal.str "b"]),
        ("additionalProperties", JVal.bool false)]) = JVal.obj gs ∧
      getKey gs "required" = some (JVal.arr [JVal.str "a", JVal.str "b"])) ∧
    (∃ gs, (JVal.obj [("properties", JVal.obj [("x", JVal.obj [])]),
        ("required", JVal.arr [JVal.str "x"]),
        ("additionalProperties", JVal.bool false)]) = JVal.obj gs ∧
      getKey gs "additionalProperties" = some (JVal.bool false) ∧
      ∃ pfs', getKey gs "properties" = some (JVal.obj pfs') ∧
        ∀ r ∈ pfs', propHasDefault r.2 = false) := by
  refine ⟨rfl, ?_, ?_⟩
  · obtain ⟨gs, hgs, -⟩ := filter_input_schema_props
      [("properties", JVal.obj [("a", JVal.obj []), ("b", JVal.obj [])]),
        ("required", JVal.arr [JVal.str "a"])]
      [("a", JVal.obj []), ("b", JVal.obj [])]
      (JVal.obj [("properties", JVal.obj [("a", JVal.obj []),
        ("b", JVal.obj [])]),
        ("required", JVal.arr [JVal.str "a", JVal.str "b"]),
        ("additionalProperties", JVal.bool false)]) rfl rfl
    injection hgs with hgs'
    exact ⟨gs, by rw [hgs'], by rw [← hgs']; rfl⟩
  · obtain ⟨gs, hgs, -, -, ⟨pfs', hp', hfst, hnd⟩, hap⟩ :=
      filter_input_schema_props
      [("properties", JVal.obj [("x", JVal.obj [("default", JVal.num 5)])])]
      [("x", JVal.obj [("default", JVal.num 5)])]
      (JVal.obj [("properties", JVal.obj [("x", JVal.obj [])]),
        ("required", JVal.arr [JVal.str "x"]),
        ("additionalProperties", JVal.bool false)]) rfl rfl
    injection hgs with hgs'
    exact ⟨gs, by rw [hgs'], hap rfl, pfs', hp', hnd⟩

/-! ### Tool-catalog aggregation: last registered provider wins (C8) -/

theorem list_tools_fst (ss : List (String × List MCPTool)) :
    (list_tools ss).1 =
      ss.foldl (fun m s => toolMapUpdate m s.2 s.1) [] := by
  suffices h : ∀ init : List (String × String) × List MCPTool,
      (ss.foldl (fun acc s => (toolMapUpdate acc.1 s.2 s.1, acc.2 ++ s.2))
        init).1 =
      ss.foldl (fun m s => toolMapUpdate m s.2 s.1) init.1 by
    exact h ([], [])
  induction ss with
  | nil => intro init; rfl
  | cons s rest ih =>
    intro init
    simp only [List.foldl_cons]
    exact ih (toolMapUpdate init.1 s.2 s.1, init.2 ++ s.2)

theorem getKey_toolMapUpdate (m : List (String × String))
    (tools : List MCPTool) (server t : String) :
    getKey (toolMapUpdate m tools server) t =
      if t ∈ tools.map MCPTool.name then some server else getKey m t := by
  induction tools generalizing m with
  | nil => simp [toolMapUpdate]
  | cons tl rest ih =>
    have hstep : toolMapUpdate m (tl :: rest) server =
        toolMapUpdate (setKey m tl.name server) rest server := rfl
    rw [hstep, ih]
    by_cases hr : t ∈ rest.map MCPTool.name
    · rw [if_pos hr, if_pos (by simp [hr])]
    · rw [if_neg hr]
      by_cases ht : tl.name = t
      · have hmem : t ∈ List.map MCPTool.name (tl :: rest) := by
          simp only [List.map_cons, List.mem_cons]
          exact Or.inl ht.symm
        rw [ht, getKey_setKey_self, if_pos hmem]
      · have hmem : t ∉ List.map MCPTool.name (tl :: rest) := by
          simp only [List.map_cons, List.mem_cons]
          rintro (hc | hc)
          · exact ht hc.symm
          · exact hr hc
        rw [getKey_setKey_ne _ _ (fun hc => ht hc.symm), if_neg hmem]

theorem getKey_toolMapFold_skip {t : String}
    {ss : List (String × List MCPTool)}
    (h : ∀ s ∈ ss, t ∉ s.2.map MCPTool.name) :
    ∀ m, getKey (ss.foldl (fun m s => toolMapUpdate m s.2 s.1) m) t =
      getKey m t := by
  induction ss with
  | nil => intro m; rfl
  | cons s rest ih =>
    intro m
    simp only [List.foldl_cons]
    rw [ih (fun u hu => h u (List.mem_cons_of_mem _ hu))]
    rw [getKey_toolMapUpdate, if_neg (h s (List.mem_cons_self _ _))]

/-- C8: when several registered providers declare a tool with the same
name, the aggregated `tool_map` resolves that name to the provider
registered last among those declaring it: for any two providers `a`
(earlier) and `b` (later) declaring `t`, with no later provider declaring
`t` again, the namespace maps `t` to `b` — never to the earlier `a`, and by
a deterministic rule. -/
theorem list_tools_last_wins (ss₁ ss₂ ss₃ : List (String × List MCPTool))
    (a b t : String) (ta tb : List MCPTool)
    (hta : t ∈ ta.map MCPTool.name) (htb : t ∈ tb.map MCPTool.name)
    (h₃ : ∀ s ∈ ss₃, t ∉ s.2.map MCPTool.name) :
    getKey (list_tools (ss₁ ++ (a, ta) :: ss₂ ++ (b, tb) :: ss₃)).1 t =
      some b ∧
    (a ≠ b →
      getKey (list_tools (ss₁ ++ (a, ta) :: ss₂ ++ (b, tb) :: ss₃)).1 t ≠
        some a) := by
  have hmain :
      getKey (list_tools (ss₁ ++ (a, ta) :: ss₂ ++ (b, tb) :: ss₃)).1 t =
        some b := by
    rw [list_tools_fst]
    rw [List.foldl_append, List.foldl_cons, List.foldl_append,
      List.foldl_cons]
    rw [getKey_toolMapFold_skip h₃]
    rw [getKey_toolMapUpdate, if_pos htb]
  refine ⟨hmain, fun hab => ?_⟩
  rw [hmain]
  intro hc
  injection hc with hc
  exact hab hc.symm

/-- C8 witness: two providers both declaring tool `t`; the map resolves
`t` to the later-registered provider `p2`. -/
theorem list_tools_last_wins_witness :
    getKey (list_tools [("p1", [⟨"t", "first", JVal.null⟩]),
      ("p2", [⟨"t", "second", JVal.null⟩])]).1 "t" = some "p2" ∧
    ("p1" ≠ "p2" →
      getKey (list_tools [("p1", [⟨"t", "first", JVal.null⟩]),
        ("p2", [⟨"t", "second", JVal.null⟩])]).1 "t" ≠ some "p1") :=
  list_tools_last_wins [] [] [] "p1" "p2" "t"
    [⟨"t", "first", JVal.null⟩] [⟨"t", "second", JVal.null⟩]
    (by simp) (by simp) (by simp)

/-! ### Chat-loop lemmas -/

theorem processCalls_ok (env : ChatEnv) :
    ∀ (tcs : List ToolCall) (msgs : List Message) (evs : List ChatEvent),
    (∀ tc ∈ tcs, ∃ v, env.jsonLoads tc.arguments = .ok v) →
    (∀ name args, ∃ r, call_tool env.cm name args env.tool_map = .ok r) →
    ∃ msgs1 newEvs,
      processCalls env tcs msgs evs = .ok (msgs1, evs ++ newEvs) ∧
      (∀ e ∈ newEvs, isFinalEvent e = false) ∧
      (∃ suffix, msgs1 = msgs ++ suffix ∧ ∀ m ∈ suffix, m.role = Role.tool) := by
  intro tcs
  induction tcs with
  | nil =>
    intro msgs evs _ _
    exact ⟨msgs, [], by simp [processCalls], by simp,
      ⟨[], by simp, by simp⟩⟩
  | cons tc rest ih =>
    intro msgs evs hparse hcall
    obtain ⟨v, hv⟩ := hparse tc (List.mem_cons_self _ _)
    obtain ⟨r, hr⟩ := hcall tc.name v
    obtain ⟨msgs1, newEvs, hpc, hnf, suffix, hsuf, hrole⟩ :=
      ih (msgs ++ [toolResultMsg tc.id r])
        (evs ++ [ChatEvent.toolCallLog tc.name
          ((getKey env.tool_map tc.name).getD "") v,
          ChatEvent.toolResultLog tc.name
          ((getKey env.tool_map tc.name).getD "") r])
        (fun u hu => hparse u (List.mem_cons_of_mem _ hu)) hcall
    refine ⟨msgs1,
      ChatEvent.toolCallLog tc.name
        ((getKey env.tool_map tc.name).getD "") v ::
      ChatEvent.toolResultLog tc.name
        ((getKey env.tool_map tc.name).getD "") r :: newEvs, ?_, ?_, ?_⟩
    · simp only [processCalls, hv, hr]
      rw [hpc]
      simp [List.append_assoc]
    · intro e he
      rcases List.mem_cons.mp he with he | he
      · subst he; rfl
      · rcases List.mem_cons.mp he with he | he
        · subst he; rfl
        · exact hnf e he
    · refine ⟨toolResultMsg tc.id r :: suffix, by simpa using hsuf, ?_⟩
      intro m hm
      rcases List.mem_cons.mp hm with hm | hm
      · subst hm; rfl
      · exact hrole m hm

theorem chatLoop_tool_calls (env : ChatEnv)
    (hfin : ∀ msgs,
      (env.model msgs (some env.tools)).finish_reason = "tool_calls")
    (hparse : ∀ msgs, ∀ tc ∈ (env.model msgs (some env.tools)).tool_calls,
      ∃ v, env.jsonLoads tc.arguments = .ok v)
    (hcall : ∀ name args,
      ∃ r, call_tool env.cm name args env.tool_map = .ok r) :
    ∀ (n : Nat) (msgs : List Message),
      (chatLoop env n msgs).calls =
        List.replicate n (some env.tools) ++ [none] ∧
      (∃ evs c, (chatLoop env n msgs).events = evs ++ [ChatEvent.final c] ∧
        ∀ e ∈ evs, isFinalEvent e = false) ∧
      (chatLoop env n msgs).outcome = .done := by
  intro n
  induction n with
  | zero =>
    intro msgs
    exact ⟨rfl, ⟨[], (env.model msgs none).content, by simp [chatLoop],
      by simp⟩, rfl⟩
  | succ n ih =>
    intro msgs
    obtain ⟨msgs1, newEvs, hpc, hnf, -⟩ :=
      processCalls_ok env (env.model msgs (some env.tools)).tool_calls
        (msgs ++ [assistantToolMsg (env.model msgs (some env.tools))]) []
        (hparse msgs) hcall
    have hstep : chatLoop env (n + 1) msgs =
        { events := ([] ++ newEvs) ++ (chatLoop env n msgs1).events,
          calls := some env.tools :: (chatLoop env n msgs1).calls,
          msgs := (chatLoop env n msgs1).msgs,
          outcome := (chatLoop env n msgs1).outcome } := by
      simp only [chatLoop]
      rw [if_pos (hfin msgs), hpc]
    obtain ⟨hcalls, ⟨evs, c, hevents, hevnf⟩, houtcome⟩ := ih msgs1
    refine ⟨?_, ⟨newEvs ++ evs, c, ?_, ?_⟩, ?_⟩
    · rw [hstep]
      simp only [hcalls, List.replicate_succ, List.cons_append]
    · rw [hstep]
      simp only [hevents, List.nil_append, List.append_assoc]
    · intro e he
      rcases List.mem_append.mp he with he | he
      · exact hnf e he
      · exact hevnf e he
    · rw [hstep]
      exact houtcome

/-- C1 (amended): for `maxTurns ≥ 1` and a model that answers every
in-loop call with a `tool_calls` finish requesting at least one call,
*provided* every requested call's arguments parse and every dispatch
through the router returns without raising, the chat loop makes exactly
`maxTurns + 1` model calls — `maxTurns` with the tool definitions and one
final call with them withheld — emits the final call's answer as the last
event, the only final event, and terminates normally.  (Without the
proviso the claim as stated fails: an argument-parse failure or a raising
provider aborts the run early — see the counterexample.) -/
theorem chat_turn_budget (env : ChatEnv) (input : List Message) (mt : Nat)
    (hmt : 1 ≤ mt)
    (hfin : ∀ msgs,
      (env.model msgs (some env.tools)).finish_reason = "tool_calls")
    (hntc : ∀ msgs, (env.model msgs (some env.tools)).tool_calls ≠ [])
    (hparse : ∀ msgs, ∀ tc ∈ (env.model msgs (some env.tools)).tool_calls,
      ∃ v, env.jsonLoads tc.arguments = .ok v)
    (hcall : ∀ name args,
      ∃ r, call_tool env.cm name args env.tool_map = .ok r) :
    (chat env input mt).calls =
      List.replicate mt (some env.tools) ++ [none] ∧
    (∃ evs c, (chat env input mt).events = evs ++ [ChatEvent.final c] ∧
      ∀ e ∈ evs, isFinalEvent e = false) ∧
    (chat env input mt).outcome = .done :=
  chatLoop_tool_calls env hfin hparse hcall mt input

/-- C1 witness: a model that always requests one well-formed tool call,
with a turn budget of 2: three model calls (two with tools, the last
withheld), final event last, normal termination. -/
theorem chat_turn_budget_witness :
    (let env : ChatEnv :=
      { jsonLoads := fun _ => Except.ok JVal.null,
        model := fun _ o =>
          match o with
          | some _ => { finish_reason := "tool_calls", content := "",
                        tool_calls := [{ id := "c1", name := "toolA",
                                         arguments := "\x7b\x7d" }] }
          | none => { finish_reason := "stop", content := "done",
                      tool_calls := [] },
        cm := { sessions := [] }, tool_map := [],
        tools := [JVal.str "toolA-def"] }
     1 ≤ 2 ∧
     ((chat env [] 2).calls =
        List.replicate 2 (some [JVal.str "toolA-def"]) ++ [none] ∧
      (∃ evs c, (chat env [] 2).events = evs ++ [ChatEvent.final c] ∧
        ∀ e ∈ evs, isFinalEvent e = false) ∧
      (chat env [] 2).outcome = .done)) :=
  ⟨by decide, chat_turn_budget _ [] 2 (by decide) (fun _ => rfl)
    (fun _ => by simp) (fun _ tc _ => ⟨JVal.null, rfl⟩)
    (fun _ _ => ⟨none, rfl⟩)⟩

/-- C1 counterexample: with `maxTurns = 1` and a model that responds to
every call by requesting a tool call — whose arguments string `oops` is
not valid JSON — the run makes one model call (not `maxTurns + 1 = 2`),
emits no event at all (in particular no final event), and ends with the
`json.loads` exception escaping the loop.  This refutes the claim as
stated, which promises `maxTurns + 1` calls and a final event for every
model that always requests a tool call. -/
theorem chat_turn_budget_counterexample :
    (let env : ChatEnv :=
      { jsonLoads := fun s =>
          if s = "\x7b\x7d" then Except.ok (JVal.obj [])
          else Except.error "Expecting value",
        model := fun _ _ =>
          { finish_reason := "tool_calls", content := "",
            tool_calls := [{ id := "c1", name := "toolA",
                             arguments := "oops" }] },
        cm := { sessions := [] }, tool_map := [],
        tools := [JVal.str "toolA-def"] }
     (chat env [] 1).calls.length = 1 ∧
     (chat env [] 1).events = [] ∧
     (chat env [] 1).outcome = ChatOutcome.raised "Expecting value") :=
  ⟨rfl, rfl, rfl⟩

/-- C9: if the model's first response is a plain answer (any finish reason
other than `tool_calls`), the chat run makes exactly one model call, emits
exactly one event — the final answer — no tool events, leaves the
conversation untouched, and terminates at once regardless of the remaining
turn budget. -/
theorem chat_direct_answer (env : ChatEnv) (input : List Message) (mt : Nat)
    (hmt : 1 ≤ mt)
    (hfin : (env.model input (some env.tools)).finish_reason ≠
      "tool_calls") :
    chat env input mt =
      { events := [ChatEvent.final
          (env.model input (some env.tools)).content],
        calls := [some env.tools], msgs := input, outcome := .done } := by
  obtain ⟨n, rfl⟩ : ∃ n, mt = n + 1 :=
    ⟨mt - 1, (Nat.succ_pred_eq_of_pos hmt).symm⟩
  show chatLoop env (n + 1) input = _
  simp only [chatLoop]
  rw [if_neg hfin]

/-- C9 witness: a model that answers directly, with budget 5: one final
event, zero tool events, done. -/
theorem chat_direct_answer_witness :
    (let env : ChatEnv :=
      { jsonLoads := fun _ => Except.ok JVal.null,
        model := fun _ _ =>
          { finish_reason := "stop", content := "answer",
            tool_calls := [] },
        cm := { sessions := [] }, tool_map := [], tools := [] }
     1 ≤ 5 ∧
     chat env [] 5 =
      { events := [ChatEvent.final "answer"], calls := [some []],
        msgs := [], outcome := .done }) :=
  ⟨by decide, chat_direct_answer _ [] 5 (by decide) (by decide)⟩

theorem processCalls_raise_parse (env : ChatEnv) :
    ∀ (pre : List ToolCall) (tc : ToolCall) (post : List ToolCall)
      (msgs : List Message) (evs : List ChatEvent) (e : String),
    (∀ u ∈ pre, ∃ v, env.jsonLoads u.arguments = .ok v) →
    (∀ u ∈ pre, ∀ args,
      ∃ r, call_tool env.cm u.name args env.tool_map = .ok r) →
    env.jsonLoads tc.arguments = .error e →
    ∃ preMsgs preEvs,
      processCalls env (pre ++ tc :: post) msgs evs =
        .error (msgs ++ preMsgs, evs ++ preEvs, e) ∧
      (∀ ev ∈ preEvs, isFinalEvent ev = false) ∧
      (∀ m ∈ preMsgs, m.role = Role.tool ∧
        ∃ u ∈ pre, m.tool_call_id = some u.id) := by
  intro pre
  induction pre with
  | nil =>
    intro tc post msgs evs e _ _ hbad
    refine ⟨[], [], ?_, by simp, by simp⟩
    simp only [List.nil_append, processCalls, hbad, List.append_nil]
  | cons u pre' ih =>
    intro tc post msgs evs e hparse hcall hbad
    obtain ⟨v, hv⟩ := hparse u (List.mem_cons_self _ _)
    obtain ⟨r, hr⟩ := hcall u (List.mem_cons_self _ _) v
    obtain ⟨preMsgs, preEvs, hpc, hnf, hmm⟩ :=
      ih tc post (msgs ++ [toolResultMsg u.id r])
        (evs ++ [ChatEvent.toolCallLog u.name
          ((getKey env.tool_map u.name).getD "") v,
          ChatEvent.toolResultLog u.name
          ((getKey env.tool_map u.name).getD "") r]) e
        (fun w hw => hparse w (List.mem_cons_of_mem _ hw))
        (fun w hw => hcall w (List.mem_cons_of_mem _ hw)) hbad
    refine ⟨toolResultMsg u.id r :: preMsgs,
      ChatEvent.toolCallLog u.name
        ((getKey env.tool_map u.name).getD "") v ::
      ChatEvent.toolResultLog u.name
        ((getKey env.tool_map u.name).getD "") r :: preEvs, ?_, ?_, ?_⟩
    · rw [List.cons_append]
      simp only [processCalls, hv, hr]
      rw [hpc]
      simp [List.append_assoc]
    · intro ev hev
      rcases List.mem_cons.mp hev with hev | hev
      · subst hev; rfl
      · rcases List.mem_cons.mp hev with hev | hev
        · subst hev; rfl
        · exact hnf ev hev
    · intro m hm
      rcases List.mem_cons.mp hm with hm | hm
      · subst hm
        exact ⟨rfl, u, List.mem_cons_self _ _, rfl⟩
      · obtain ⟨hrole, w, hw, hid⟩ := hmm m hm
        exact ⟨hrole, w, List.mem_cons_of_mem _ hw, hid⟩

theorem processCalls_raise_call (env : ChatEnv) :
    ∀ (pre : List ToolCall) (tc : ToolCall) (post : List ToolCall)
      (msgs : List Message) (evs : List ChatEvent) (args : JVal) (e : String),
    (∀ u ∈ pre, ∃ v, env.jsonLoads u.arguments = .ok v) →
    (∀ u ∈ pre, ∀ a,
      ∃ r, call_tool env.cm u.name a env.tool_map = .ok r) →
    env.jsonLoads tc.arguments = .ok args →
    call_tool env.cm tc.name args env.tool_map = .error e →
    ∃ preMsgs preEvs,
      processCalls env (pre ++ tc :: post) msgs evs =
        .error (msgs ++ preMsgs, (evs ++ preEvs) ++
          [ChatEvent.toolCallLog tc.name
            ((getKey env.tool_map tc.name).getD "") args], e) ∧
      (∀ ev ∈ preEvs, isFinalEvent ev = false) ∧
      (∀ m ∈ preMsgs, m.role = Role.tool ∧
        ∃ u ∈ pre, m.tool_call_id = some u.id) := by
  intro pre
  induction pre with
  | nil =>
    intro tc post msgs evs args e _ _ hargs hfail
    refine ⟨[], [], ?_, by simp, by simp⟩
    simp only [List.nil_append, processCalls, hargs, hfail, List.append_nil]
  | cons u pre' ih =>
    intro tc post msgs evs args e hparse hcall hargs hfail
    obtain ⟨v, hv⟩ := hparse u (List.mem_cons_self _ _)
    obtain ⟨r, hr⟩ := hcall u (List.mem_cons_self _ _) v
    obtain ⟨preMsgs, preEvs, hpc, hnf, hmm⟩ :=
      ih tc post (msgs ++ [toolResultMsg u.id r])
        (evs ++ [ChatEvent.toolCallLog u.name
          ((getKey env.tool_map u.name).getD "") v,
          ChatEvent.toolResultLog u.name
          ((getKey env.tool_map u.name).getD "") r]) args e
        (fun w hw => hparse w (List.mem_cons_of_mem _ hw))
        (fun w hw => hcall w (List.mem_cons_of_mem _ hw)) hargs hfail
    refine ⟨toolResultMsg u.id r :: preMsgs,
      ChatEvent.toolCallLog u.name
        ((getKey env.tool_map u.name).getD "") v ::
      ChatEvent.toolResultLog u.name
        ((getKey env.tool_map u.name).getD "") r :: preEvs, ?_, ?_, ?_⟩
    · rw [List.cons_append]
      simp only [processCalls, hv, hr]
      rw [hpc]
      simp [List.append_assoc]
    · intro ev hev
      rcases List.mem_cons.mp hev with hev | hev
      · subst hev; rfl
      · rcases List.mem_cons.mp hev with hev | hev
        · subst hev; rfl
        · exact hnf ev hev
    · intro m hm
      rcases List.mem_cons.mp hm with hm | hm
      · subst hm
        exact ⟨rfl, u, List.mem_cons_self _ _, rfl⟩
      · obtain ⟨hrole, w, hw, hid⟩ := hmm m hm
        exact ⟨hrole, w, List.mem_cons_of_mem _ hw, hid⟩

/-- C3 (amended): a tool-call request whose arguments string fails to
parse aborts the whole run, not just that call: `json.loads` raises before
anything is emitted or appended for the failing call, the exception
escapes the chat loop (outcome `raised`), no error result correlated to
that call is appended, no further model call is made, and the remaining
requested calls and turns are not processed.  Only the calls requested
before it in the same turn are resolved. -/
theorem chat_parse_failure_aborts (env : ChatEnv) (input : List Message)
    (mt : Nat) (r : ModelResponse) (pre : List ToolCall) (tc : ToolCall)
    (post : List ToolCall) (e : String)
    (hr : env.model input (some env.tools) = r)
    (hfin : r.finish_reason = "tool_calls")
    (htc : r.tool_calls = pre ++ tc :: post)
    (hpre : ∀ u ∈ pre, ∃ v, env.jsonLoads u.arguments = .ok v)
    (hcall : ∀ u ∈ pre, ∀ args,
      ∃ x, call_tool env.cm u.name args env.tool_map = .ok x)
    (hbad : env.jsonLoads tc.arguments = .error e)
    (hid : ∀ u ∈ pre, u.id ≠ tc.id) :
    ∃ preMsgs preEvs,
      chat env input (mt + 1) =
        { events := preEvs, calls := [some env.tools],
          msgs := (input ++ [assistantToolMsg r]) ++ preMsgs,
          outcome := .raised e } ∧
      (∀ ev ∈ preEvs, isFinalEvent ev = false) ∧
      (∀ m ∈ preMsgs, m.tool_call_id ≠ some tc.id) := by
  obtain ⟨preMsgs, preEvs, hpc, hnf, hmm⟩ :=
    processCalls_raise_parse env pre tc post
      (input ++ [assistantToolMsg r]) [] e hpre hcall hbad
  refine ⟨preMsgs, preEvs, ?_, hnf, ?_⟩
  · show chatLoop env (mt + 1) input = _
    simp only [chatLoop]
    rw [hr, if_pos hfin, htc, hpc]
    simp
  · intro m hm hcontra
    obtain ⟨-, u, hu, hidm⟩ := hmm m hm
    rw [hidm] at hcontra
    injection hcontra with hcontra
    exact hid u hu hcontra

/-- C3 counterexample: the model's single turn requests three calls; the
second call's arguments string `oops` is not valid JSON.  The run resolves
the first call, then aborts with the `json.loads` exception: no error
result is appended for the failing call (the only tool message is the
first call's), the third call and all further turns are never processed,
and no final event is emitted — refuting the claim that a parse failure is
terminal only for that call and that the loop continues. -/
theorem chat_parse_failure_counterexample :
    (let env : ChatEnv :=
      { jsonLoads := fun s =>
          if s = "\x7b\x7d" then Except.ok (JVal.obj [])
          else Except.error "Expecting value",
        model := fun _ o =>
          match o with
          | some _ =>
            { finish_reason := "tool_calls", content := "",
              tool_calls := [{ id := "a", name := "t1",
                               arguments := "\x7b\x7d" },
                             { id := "b", name := "t2",
                               arguments := "oops" },
                             { id := "c", name := "t3",
                               arguments := "\x7b\x7d" }] }
          | none => { finish_reason := "stop", content := "done",
                      tool_calls := [] },
        cm := { sessions := [] }, tool_map := [], tools := [] }
     chat env [] 3 =
      { events := [ChatEvent.toolCallLog "t1" "" (JVal.obj []),
          ChatEvent.toolResultLog "t1" "" none],
        calls := [some []],
        msgs := [{ role := Role.assistant, content := "",
                   tool_call_id := none,
                   tool_calls := [{ id := "a", name := "t1",
                                    arguments := "\x7b\x7d" },
                                  { id := "b", name := "t2",
                                    arguments := "oops" },
                                  { id := "c", name := "t3",
                                    arguments := "\x7b\x7d" }] },
                 { role := Role.tool, content := "None",
                   tool_call_id := some "a", tool_calls := [] }],
        outcome := ChatOutcome.raised "Expecting value" }) := rfl

/-- C3 witness: the amended theorem applied to the counterexample
scenario. -/
theorem chat_parse_failure_aborts_witness :
    (let env : ChatEnv :=
      { jsonLoads := fun s =>
          if s = "\x7b\x7d" then Except.ok (JVal.obj [])
          else Except.error "Expecting value",
        model := fun _ o =>
          match o with
          | some _ =>
            { finish_reason := "tool_calls", content := "",
              tool_calls := [{ id := "a", name := "t1",
                               arguments := "\x7b\x7d" },
                             { id := "b", name := "t2",
                               arguments := "oops" },
                             { id := "c", name := "t3",
                               arguments := "\x7b\x7d" }] }
          | none => { finish_reason := "stop", content := "done",
                      tool_calls := [] },
        cm := { sessions := [] }, tool_map := [], tools := [] }
     ∃ preMsgs preEvs,
      chat env [] 3 =
        { events := preEvs, calls := [some []],
          msgs := ([] ++ [assistantToolMsg
            { finish_reason := "tool_calls", content := "",
              tool_calls := [{ id := "a", name := "t1",
                               arguments := "\x7b\x7d" },
                             { id := "b", name := "t2",
                               arguments := "oops" },
                             { id := "c", name := "t3",
                               arguments := "\x7b\x7d" }] }]) ++ preMsgs,
          outcome := .raised "Expecting value" } ∧
      (∀ ev ∈ preEvs, isFinalEvent ev = false) ∧
      (∀ m ∈ preMsgs, m.tool_call_id ≠ some "b")) :=
  chat_parse_failure_aborts _ [] 2 _
    [{ id := "a", name := "t1", arguments := "\x7b\x7d" }]
    { id := "b", name := "t2", arguments := "oops" }
    [{ id := "c", name := "t3", arguments := "\x7b\x7d" }]
    "Expecting value" rfl rfl rfl
    (fun u hu => ⟨JVal.obj [], by
      rw [List.mem_singleton] at hu
      subst hu
      rfl⟩)
    (fun u hu args => ⟨none, rfl⟩)
    rfl
    (fun u hu => by
      rw [List.mem_singleton] at hu
      subst hu
      decide)

/-- C4 (amended): when a tool call resolves to an open provider session
and the session raises while executing it, the exception propagates out of
the router (`call_tool` has no handler) and aborts the whole run: the
tool-call event for the failing call is the last event, no tool-role
message is appended for it, no further model call is made, and the
remaining calls and turns are never processed.  Only a failure that the
session returns as normal result content reaches the conversation as
text. -/
theorem chat_provider_raise_aborts (env : ChatEnv) (input : List Message)
    (mt : Nat) (r : ModelResponse) (pre : List ToolCall) (tc : ToolCall)
    (post : List ToolCall) (args : JVal) (e : String)
    (hr : env.model input (some env.tools) = r)
    (hfin : r.finish_reason = "tool_calls")
    (htc : r.tool_calls = pre ++ tc :: post)
    (hpre : ∀ u ∈ pre, ∃ v, env.jsonLoads u.arguments = .ok v)
    (hprecall : ∀ u ∈ pre, ∀ a,
      ∃ x, call_tool env.cm u.name a env.tool_map = .ok x)
    (hargs : env.jsonLoads tc.arguments = .ok args)
    (hfail : call_tool env.cm tc.name args env.tool_map = .error e)
    (hid : ∀ u ∈ pre, u.id ≠ tc.id) :
    ∃ preMsgs preEvs,
      chat env input (mt + 1) =
        { events := preEvs ++ [ChatEvent.toolCallLog tc.name
            ((getKey env.tool_map tc.name).getD "") args],
          calls := [some env.tools],
          msgs := (input ++ [assistantToolMsg r]) ++ preMsgs,
          outcome := .raised e } ∧
      (∀ ev ∈ preEvs, isFinalEvent ev = false) ∧
      (∀ m ∈ preMsgs, m.tool_call_id ≠ some tc.id) := by
  obtain ⟨preMsgs, preEvs, hpc, hnf, hmm⟩ :=
    processCalls_raise_call env pre tc post
      (input ++ [assistantToolMsg r]) [] args e hpre hprecall hargs hfail
  refine ⟨preMsgs, preEvs, ?_, hnf, ?_⟩
  · show chatLoop env (mt + 1) input = _
    simp only [chatLoop]
    rw [hr, if_pos hfin, htc, hpc]
    simp
  · intro m hm hcontra
    obtain ⟨-, u, hu, hidm⟩ := hmm m hm
    rw [hidm] at hcontra
    injection hcontra with hcontra
    exact hid u hu hcontra

/-- C4 counterexample: tool `t1` resolves to the open session of provider
`srv`, and that session raises `boom` while executing the call.  The run
aborts with `boom` escaping the router and the chat loop: the events stop
at the tool-call log, no tool-role message is appended for the call (the
conversation holds only the assistant request), and no further model call
happens — refuting the claim that a provider failure is wrapped into an
error-text tool message and never propagated out of the router. -/
theorem chat_provider_raise_counterexample :
    (let env : ChatEnv :=
      { jsonLoads := fun _ => Except.ok (JVal.obj []),
        model := fun _ o =>
          match o with
          | some _ =>
            { finish_reason := "tool_calls", content := "",
              tool_calls := [{ id := "a", name := "t1",
                               arguments := "\x7b\x7d" }] }
          | none => { finish_reason := "stop", content := "done",
                      tool_calls := [] },
        cm := { sessions := [("srv", fun _ _ => Except.error "boom")] },
        tool_map := [("t1", "srv")], tools := [] }
     chat env [] 5 =
      { events := [ChatEvent.toolCallLog "t1" "srv" (JVal.obj [])],
        calls := [some []],
        msgs := [{ role := Role.assistant, content := "",
                   tool_call_id := none,
                   tool_calls := [{ id := "a", name := "t1",
                                    arguments := "\x7b\x7d" }] }],
        outcome := ChatOutcome.raised "boom" }) := rfl

/-- C4 witness: the amended theorem applied to the raising-session
scenario. -/
theorem chat_provider_raise_aborts_witness :
    (let env : ChatEnv :=
      { jsonLoads := fun _ => Except.ok (JVal.obj []),
        model := fun _ o =>
          match o with
          | some _ =>
            { finish_reason := "tool_calls", content := "",
              tool_calls := [{ id := "a", name := "t1",
                               arguments := "\x7b\x7d" }] }
          | none => { finish_reason := "stop", content := "done",
                      tool_calls := [] },
        cm := { sessions := [("srv", fun _ _ => Except.error "boom")] },
        tool_map := [("t1", "srv")], tools := [] }
     ∃ preMsgs preEvs,
      chat env [] 5 =
        { events := preEvs ++ [ChatEvent.toolCallLog "t1" "srv"
            (JVal.obj [])],
          calls := [some []],
          msgs := ([] ++ [assistantToolMsg
            { finish_reason := "tool_calls", content := "",
              tool_calls := [{ id := "a", name := "t1",
                               arguments := "\x7b\x7d" }] }]) ++ preMsgs,
          outcome := .raised "boom" } ∧
      (∀ ev ∈ preEvs, isFinalEvent ev = false) ∧
      (∀ m ∈ preMsgs, m.tool_call_id ≠ some "a")) :=
  chat_provider_raise_aborts _ [] 4 _ []
    { id := "a", name := "t1", arguments := "\x7b\x7d" } []
    (JVal.obj []) "boom" rfl rfl rfl
    (fun u hu => absurd hu (List.not_mem_nil u))
    (fun u hu => absurd hu (List.not_mem_nil u))
    rfl rfl
    (fun u hu => absurd hu (List.not_mem_nil u))

/-- C5: a tool name absent from the namespace map yields the ToolNotFound
condition locally — `call_tool` prints a notice and returns `None`, no
exception crosses the router — and the chat loop appends the correlated
tool-role message (its content is `str(None)`, the string `"None"`) and
continues: the tool-call and tool-result events are emitted and the run
proceeds with the remaining turn budget on the extended conversation. -/
theorem chat_tool_not_found_continues (env : ChatEnv)
    (input : List Message) (mt : Nat) (r : ModelResponse) (tc : ToolCall)
    (args : JVal)
    (hr : env.model input (some env.tools) = r)
    (hfin : r.finish_reason = "tool_calls")
    (htc : r.tool_calls = [tc])
    (hargs : env.jsonLoads tc.arguments = .ok args)
    (hmiss : getKey env.tool_map tc.name = none) :
    call_tool env.cm tc.name args env.tool_map = .ok none ∧
    toolResultMsg tc.id none =
      { role := Role.tool, content := "None",
        tool_call_id := some tc.id, tool_calls := [] } ∧
    chat env input (mt + 1) =
      { events := ChatEvent.toolCallLog tc.name "" args ::
          ChatEvent.toolResultLog tc.name "" none ::
          (chatLoop env mt ((input ++ [assistantToolMsg r]) ++
            [toolResultMsg tc.id none])).events,
        calls := some env.tools ::
          (chatLoop env mt ((input ++ [assistantToolMsg r]) ++
            [toolResultMsg tc.id none])).calls,
        msgs := (chatLoop env mt ((input ++ [assistantToolMsg r]) ++
          [toolResultMsg tc.id none])).msgs,
        outcome := (chatLoop env mt ((input ++ [assistantToolMsg r]) ++
          [toolResultMsg tc.id none])).outcome } := by
  have hct : call_tool env.cm tc.name args env.tool_map = .ok none := by
    simp only [call_tool, hmiss]
  refine ⟨hct, rfl, ?_⟩
  show chatLoop env (mt + 1) input = _
  simp only [chatLoop]
  rw [hr, if_pos hfin, htc]
  have hproc : processCalls env [tc] (input ++ [assistantToolMsg r]) [] =
      .ok ((input ++ [assistantToolMsg r]) ++ [toolResultMsg tc.id none],
        [ChatEvent.toolCallLog tc.name "" args,
         ChatEvent.toolResultLog tc.name "" none]) := by
    simp only [processCalls, hargs, hct, hmiss, Option.getD_none,
      List.nil_append]
  rw [hproc]
  rfl

/-- C5 witness: a request for the unmapped tool `ghost`: the router
returns the not-found condition without raising, the `"None"` tool message
is appended, and the loop continues and finishes with a final answer on
the next turn. -/
theorem chat_tool_not_found_continues_witness :
    (let env : ChatEnv :=
      { jsonLoads := fun _ => Except.ok (JVal.obj []),
        model := fun msgs o =>
          match o with
          | some _ =>
            if msgs.isEmpty then
              { finish_reason := "tool_calls", content := "",
                tool_calls := [{ id := "a", name := "ghost",
                                 arguments := "\x7b\x7d" }] }
            else { finish_reason := "stop", content := "done",
                   tool_calls := [] }
          | none => { finish_reason := "stop", content := "late",
                      tool_calls := [] },
        cm := { sessions := [] }, tool_map := [], tools := [] }
     call_tool env.cm "ghost" (JVal.obj []) env.tool_map = .ok none ∧
     toolResultMsg "a" none =
      { role := Role.tool, content := "None",
        tool_call_id := some "a", tool_calls := [] } ∧
     chat env [] 2 =
      { events := ChatEvent.toolCallLog "ghost" "" (JVal.obj []) ::
          ChatEvent.toolResultLog "ghost" "" none ::
          (chatLoop env 1 (([] ++ [assistantToolMsg
            { finish_reason := "tool_calls", content := "",
              tool_calls := [{ id := "a", name := "ghost",
                               arguments := "\x7b\x7d" }] }]) ++
            [toolResultMsg "a" none])).events,
        calls := some [] ::
          (chatLoop env 1 (([] ++ [assistantToolMsg
            { finish_reason := "tool_calls", content := "",
              tool_calls := [{ id := "a", name := "ghost",
                               arguments := "\x7b\x7d" }] }]) ++
            [toolResultMsg "a" none])).calls,
        msgs := (chatLoop env 1 (([] ++ [assistantToolMsg
          { finish_reason := "tool_calls", content := "",
            tool_calls := [{ id := "a", name := "ghost",
                             arguments := "\x7b\x7d" }] }]) ++
          [toolResultMsg "a" none])).msgs,
        outcome := (chatLoop env 1 (([] ++ [assistantToolMsg
          { finish_reason := "tool_calls", content := "",
            tool_calls := [{ id := "a", name := "ghost",
                             arguments := "\x7b\x7d" }] }]) ++
          [toolResultMsg "a" none])).outcome }) :=
  chat_tool_not_found_continues _ [] 1
    { finish_reason := "tool_calls", content := "",
      tool_calls := [{ id := "a", name := "ghost",
                       arguments := "\x7b\x7d" }] }
    { id := "a", name := "ghost", arguments := "\x7b\x7d" }
    (JVal.obj []) rfl rfl rfl rfl rfl

/-! ### Frame effect of the chat loop on the caller's message list (C10) -/

theorem processCalls_msgs_extend (env : ChatEnv) :
    ∀ (tcs : List ToolCall) (msgs : List Message) (evs : List ChatEvent),
    (∃ m1 evs1 suf, processCalls env tcs msgs evs = .ok (m1, evs1) ∧
      m1 = msgs ++ suf ∧ ∀ x ∈ suf, x.role = Role.tool) ∨
    (∃ m1 evs1 e suf, processCalls env tcs msgs evs = .error (m1, evs1, e) ∧
      m1 = msgs ++ suf ∧ ∀ x ∈ suf, x.role = Role.tool) := by
  intro tcs
  induction tcs with
  | nil =>
    intro msgs evs
    exact Or.inl ⟨msgs, evs, [], by simp [processCalls], by simp, by simp⟩
  | cons tc rest ih =>
    intro msgs evs
    cases hv : env.jsonLoads tc.arguments with
    | error e =>
      refine Or.inr ⟨msgs, evs, e, [], ?_, by simp, by simp⟩
      simp only [processCalls, hv]
    | ok args =>
      cases hc : call_tool env.cm tc.name args env.tool_map with
      | error e =>
        refine Or.inr ⟨msgs, evs ++ [ChatEvent.toolCallLog tc.name
          ((getKey env.tool_map tc.name).getD "") args], e, [], ?_,
          by simp, by simp⟩
        simp only [processCalls, hv, hc]
      | ok obs =>
        rcases ih (msgs ++ [toolResultMsg tc.id obs])
            (evs ++ [ChatEvent.toolCallLog tc.name
              ((getKey env.tool_map tc.name).getD "") args,
              ChatEvent.toolResultLog tc.name
              ((getKey env.tool_map tc.name).getD "") obs]) with
          h | h
        · obtain ⟨m1, evs1, suf, hpc, hm, hrole⟩ := h
          refine Or.inl ⟨m1, evs1, toolResultMsg tc.id obs :: suf, ?_,
            by simpa using hm, ?_⟩
          · simp only [processCalls, hv, hc]
            exact hpc
          · intro x hx
            rcases List.mem_cons.mp hx with hx | hx
            · subst hx; rfl
            · exact hrole x hx
        · obtain ⟨m1, evs1, e, suf, hpc, hm, hrole⟩ := h
          refine Or.inr ⟨m1, evs1, e, toolResultMsg tc.id obs :: suf, ?_,
            by simpa using hm, ?_⟩
          · simp only [processCalls, hv, hc]
            exact hpc
          · intro x hx
            rcases List.mem_cons.mp hx with hx | hx
            · subst hx; rfl
            · exact hrole x hx

theorem chatLoop_msgs_extend (env : ChatEnv) :
    ∀ (n : Nat) (msgs : List Message),
    ∃ suffix, (chatLoop env n msgs).msgs = msgs ++ suffix ∧
      ∀ m ∈ suffix, m.role = Role.assistant ∨ m.role = Role.tool := by
  intro n
  induction n with
  | zero => intro msgs; exact ⟨[], by simp [chatLoop], by simp⟩
  | succ n ih =>
    intro msgs
    by_cases hfin : (env.model msgs (some env.tools)).finish_reason =
        "tool_calls"
    · rcases processCalls_msgs_extend env
          (env.model msgs (some env.tools)).tool_calls
          (msgs ++ [assistantToolMsg (env.model msgs (some env.tools))])
          [] with h | h
      · obtain ⟨m1, evs1, suf, hpc, hm, hrole⟩ := h
        obtain ⟨suffix2, hs2, hrole2⟩ := ih m1
        have hstep : (chatLoop env (n + 1) msgs).msgs =
            (chatLoop env n m1).msgs := by
          simp only [chatLoop]
          rw [if_pos hfin, hpc]
        refine ⟨[assistantToolMsg (env.model msgs (some env.tools))] ++
          suf ++ suffix2, ?_, ?_⟩
        · rw [hstep, hs2, hm]
          simp [List.append_assoc]
        · intro m hm'
          rcases List.mem_append.mp hm' with hm' | hm'
          · rcases List.mem_append.mp hm' with hm' | hm'
            · rw [List.mem_singleton] at hm'
              subst hm'
              exact Or.inl rfl
            · exact Or.inr (hrole m hm')
          · exact hrole2 m hm'
      · obtain ⟨m1, evs1, e, suf, hpc, hm, hrole⟩ := h
        have hstep : (chatLoop env (n + 1) msgs).msgs = m1 := by
          simp only [chatLoop]
          rw [if_pos hfin, hpc]
        refine ⟨[assistantToolMsg (env.model msgs (some env.tools))] ++
          suf, ?_, ?_⟩
        · rw [hstep, hm]
          simp [List.append_assoc]
        · intro m hm'
          rcases List.mem_append.mp hm' with hm' | hm'
          · rw [List.mem_singleton] at hm'
            subst hm'
            exact Or.inl rfl
          · exact Or.inr (hrole m hm')
    · refine ⟨[], ?_, by simp⟩
      simp only [chatLoop]
      rw [if_neg hfin]
      simp

theorem hget_append_lt {heap : List (List Message)} {i : Nat}
    (h : i < heap.length) (xs : List Message) :
    hget (heap ++ [xs]) i = hget heap i := by
  induction heap generalizing i with
  | nil => cases h
  | cons y rest ih =>
    cases i with
    | zero => rfl
    | succ j => exact ih (Nat.lt_of_succ_lt_succ h)

theorem hget_hset_self {heap : List (List Message)} {i : Nat}
    (h : i < heap.length) (v : List Message) :
    hget (hset heap i v) i = v := by
  induction heap generalizing i with
  | nil => cases h
  | cons y rest ih =>
    cases i with
    | zero => rfl
    | succ j => exact ih (Nat.lt_of_succ_lt_succ h) 

theorem hget_hset_ne {heap : List (List Message)} {i j : Nat}
    (h : i ≠ j) (v : List Message) :
    hget (hset heap j v) i = hget heap i := by
  induction heap generalizing i j with
  | nil => cases j <;> rfl
  | cons y rest ih =>
    cases j with
    | zero =>
      cases i with
      | zero => exact absurd rfl h
      | succ i' => rfl
    | succ j' =>
      cases i with
      | zero => rfl
      | succ i' => exact ih (fun hc => h (congrArg Nat.succ hc))

/-- C10: the chat loop works on a copy of the caller's conversation.  On
the heap of Python list objects, `chat_messages = input_messages[:]`
allocates a fresh object and every append of the run goes to it: after
the run the object behind `input_messages` still holds exactly its
original content, the copy holds the original content followed by the
messages produced during the run, and every appended message is an
assistant (tool-call) or tool-role message. -/
theorem chat_preserves_input_object (env : ChatEnv)
    (heap : List (List Message)) (inputRef mt : Nat)
    (h : inputRef < heap.length) :
    hget (chatOnHeap env heap inputRef mt).1 inputRef = hget heap inputRef ∧
    hget (chatOnHeap env heap inputRef mt).1
        (chatOnHeap env heap inputRef mt).2.1 =
      (chat env (hget heap inputRef) mt).msgs ∧
    ∃ suffix, (chat env (hget heap inputRef) mt).msgs =
        hget heap inputRef ++ suffix ∧
      ∀ m ∈ suffix, m.role = Role.assistant ∨ m.role = Role.tool := by
  refine ⟨?_, ?_, chatLoop_msgs_extend env mt (hget heap inputRef)⟩
  · show hget (hset (heap ++ [hget heap inputRef]) heap.length
      (chat env (hget heap inputRef) mt).msgs) inputRef = hget heap inputRef
    rw [hget_hset_ne (Nat.ne_of_lt h) _, hget_append_lt h]
  · show hget (hset (heap ++ [hget heap inputRef]) heap.length
      (chat env (hget heap inputRef) mt).msgs) heap.length =
      (chat env (hget heap inputRef) mt).msgs
    exact hget_hset_self (by simp) _

/-- C10 witness: a two-object heap; running the chat (direct answer) leaves
the input object unchanged and writes the run's conversation into the
fresh copy. -/
theorem chat_preserves_input_object_witness :
    (let env : ChatEnv :=
      { jsonLoads := fun _ => Except.ok JVal.null,
        model := fun _ _ =>
          { finish_reason := "stop", content := "ans", tool_calls := [] },
        cm := { sessions := [] }, tool_map := [], tools := [] }
     let heap : List (List Message) :=
      [[{ role := Role.user, content := "q", tool_call_id := none,
          tool_calls := [] }], []]
     0 < heap.length ∧
     (hget (chatOnHeap env heap 0 4).1 0 = hget heap 0 ∧
      hget (chatOnHeap env heap 0 4).1 (chatOnHeap env heap 0 4).2.1 =
        (chat env (hget heap 0) 4).msgs ∧
      ∃ suffix, (chat env (hget heap 0) 4).msgs = hget heap 0 ++ suffix ∧
        ∀ m ∈ suffix, m.role = Role.assistant ∨ m.role = Role.tool)) :=
  ⟨by decide, chat_preserves_input_object _ _ 0 4 (by decide)⟩

/-! ### Registry initialisation failure leaves earlier sessions open (C2) -/

theorem cmInitAll_ok_pre (pre : List ProviderSpec)
    (hpre : ∀ q ∈ pre, q.transportErr = none ∧ q.sessionErr = none ∧
      q.handshakeErr = none) :
    ∀ st₀ : CMInitState, cmInitAll pre st₀ = .ok
      { exitStack := st₀.exitStack ++ pre.flatMap
          (fun q => [q.name ++ ".transport", q.name ++ ".session"]),
        sessions := st₀.sessions ++ pre.map ProviderSpec.name } := by
  induction pre with
  | nil =>
    intro st₀
    simp only [cmInitAll, List.flatMap_nil, List.map_nil, List.append_nil]
  | cons q rest ih =>
    intro st₀
    obtain ⟨ht, hs, hh⟩ := hpre q (List.mem_cons_self _ _)
    have hstep : cmInitStep st₀ q = .ok
        { exitStack := (st₀.exitStack ++ [q.name ++ ".transport"]) ++
            [q.name ++ ".session"],
          sessions := st₀.sessions ++ [q.name] } := by
      simp only [cmInitStep, ht, hs, hh]
    have hred : cmInitAll (q :: rest) st₀ = cmInitAll rest
        { exitStack := st₀.exitStack ++ [q.name ++ ".transport"] ++
            [q.name ++ ".session"],
          sessions := st₀.sessions ++ [q.name] } := by
      simp only [cmInitAll, hstep]
    rw [hred, ih (fun u hu => hpre u (List.mem_cons_of_mem _ hu))]
    simp [List.append_assoc]

theorem cmInitStep_fails (p : ProviderSpec) (e : String)
    (hfail : p.transportErr = some e ∨
      (p.transportErr = none ∧ p.sessionErr = some e) ∨
      (p.transportErr = none ∧ p.sessionErr = none ∧
        p.handshakeErr = some e)) :
    ∀ st₀ : CMInitState, ∃ tail, cmInitStep st₀ p =
      .error (e, { exitStack := st₀.exitStack ++ tail,
                   sessions := st₀.sessions }) := by
  intro st₀
  rcases hfail with h | ⟨h1, h2⟩ | ⟨h1, h2, h3⟩
  · exact ⟨[], by simp only [cmInitStep, h, List.append_nil]⟩
  · exact ⟨[p.name ++ ".transport"], by simp only [cmInitStep, h1, h2]⟩
  · refine ⟨[p.name ++ ".transport", p.name ++ ".session"], ?_⟩
    simp only [cmInitStep, h1, h2, h3]
    rw [List.append_assoc]
    rfl

theorem cmInitAll_append_ok {xs : List ProviderSpec}
    {st st' : CMInitState} (ys : List ProviderSpec)
    (h : cmInitAll xs st = .ok st') :
    cmInitAll (xs ++ ys) st = cmInitAll ys st' := by
  induction xs generalizing st with
  | nil =>
    simp only [cmInitAll] at h
    injection h with h
    rw [List.nil_append, h]
  | cons q rest ih =>
    simp only [cmInitAll] at h ⊢
    cases hq : cmInitStep st q with
    | error es => rw [hq] at h; cases h
    | ok st1 =>
      rw [hq] at h
      exact ih h

/-- C2 (amended): when any provider fails during registry initialisation
(at the transport open, session open, or handshake), `initialize` reports
the failure — the exception propagates to the caller — but the sessions
opened before the failure are NOT closed first: at the moment the failure
propagates, every earlier provider's session is still registered and all
its resources are still on the exit stack.  They are released only by a
later explicit `close()`, which the failure path of `initialize_servers` /
`main` never calls. -/
theorem cmInitAll_partial_failure (pre : List ProviderSpec)
    (p : ProviderSpec) (rest : List ProviderSpec) (e : String)
    (hpre : ∀ q ∈ pre, q.transportErr = none ∧ q.sessionErr = none ∧
      q.handshakeErr = none)
    (hfail : p.transportErr = some e ∨
      (p.transportErr = none ∧ p.sessionErr = some e) ∨
      (p.transportErr = none ∧ p.sessionErr = none ∧
        p.handshakeErr = some e)) :
    ∃ st : CMInitState,
      cmInitAll (pre ++ p :: rest) { exitStack := [], sessions := [] } =
        .error (e, st) ∧
      st.sessions = pre.map ProviderSpec.name ∧
      (∃ tail, st.exitStack = pre.flatMap
        (fun q => [q.name ++ ".transport", q.name ++ ".session"]) ++ tail) ∧
      (∀ q ∈ pre, q.name ++ ".session" ∈ st.exitStack) := by
  have hok := cmInitAll_ok_pre pre hpre { exitStack := [], sessions := [] }
  obtain ⟨tail, hstep⟩ := cmInitStep_fails p e hfail
    { exitStack := [] ++ pre.flatMap
        (fun q => [q.name ++ ".transport", q.name ++ ".session"]),
      sessions := [] ++ pre.map ProviderSpec.name }
  refine ⟨{ exitStack := ([] ++ pre.flatMap
              (fun q => [q.name ++ ".transport", q.name ++ ".session"])) ++
              tail,
            sessions := [] ++ pre.map ProviderSpec.name },
    ?_, by simp, ?_, ?_⟩
  · rw [cmInitAll_append_ok (p :: rest) hok]
    simp only [cmInitAll, hstep]
  · exact ⟨tail, by simp⟩
  · intro q hq
    simp only [List.nil_append]
    refine List.mem_append_left _ ?_
    exact List.mem_flatMap.mpr ⟨q, hq, by simp⟩

/-- C2 counterexample: providers `A` (succeeds) then `B` (handshake
fails).  `initialize` reports the failure, but at the moment it
propagates, `A`'s session is still in the `sessions` dict and both of
`A`'s resources (and `B`'s two entered contexts) are still open on the
exit stack: nothing has been closed — refuting the claim that the first
provider's session is closed before the failure propagates. -/
theorem cmInit_counterexample :
    cmInitAll [{ name := "A", transportErr := none, sessionErr := none,
                 handshakeErr := none },
               { name := "B", transportErr := none, sessionErr := none,
                 handshakeErr := some "handshake failed" }]
      { exitStack := [], sessions := [] } =
      .error ("handshake failed",
        { exitStack := ["A" ++ ".transport", "A" ++ ".session",
            "B" ++ ".transport", "B" ++ ".session"],
          sessions := ["A"] }) ∧
    ("A" ++ ".session") ∈ ["A" ++ ".transport", "A" ++ ".session",
      "B" ++ ".transport", "B" ++ ".session"] :=
  ⟨rfl, by simp⟩

/-- C2 witness: the amended theorem applied to the two-provider scenario
with the second provider failing its handshake. -/
theorem cmInitAll_partial_failure_witness :
    (let pA : ProviderSpec :=
      { name := "A", transportErr := none, sessionErr := none,
        handshakeErr := none }
     let pB : ProviderSpec :=
      { name := "B", transportErr := none, sessionErr := none,
        handshakeErr := some "handshake failed" }
     ∃ st : CMInitState,
      cmInitAll ([pA] ++ pB :: []) { exitStack := [], sessions := [] } =
        .error ("handshake failed", st) ∧
      st.sessions = [pA].map ProviderSpec.name ∧
      (∃ tail, st.exitStack = [pA].flatMap
        (fun q => [q.name ++ ".transport", q.name ++ ".session"]) ++ tail) ∧
      (∀ q ∈ [pA], q.name ++ ".session" ∈ st.exitStack)) :=
  cmInitAll_partial_failure _ _ [] "handshake failed"
    (fun q hq => by
      rw [List.mem_singleton] at hq
      subst hq
      exact ⟨rfl, rfl, rfl⟩)
    (Or.inr (Or.inr ⟨rfl, rfl, rfl⟩))
